import Mathlib

set_option maxHeartbeats 1000000

/-!
Verification of the pytracking tracking-data codec and configuration model
(`pytracking/tracking.py`, `pytracking/html.py`).

Python strings are modelled as lists of characters (`PyStr`), byte strings as
lists of naturals below 256, dicts as insertion-ordered association lists, and
raised exceptions as `Except PyErr`.  The JSON values pytracking embeds are
modelled by the inductive `Json` (floats are outside the model); `jsonDumps`
mirrors `json.dumps` with its default separators and `ensure_ascii=True`
escaping, and `jsonLoads` mirrors `json.loads` on that value type.  The
base64 and UTF-8 codecs of the standard library, and the Fernet cipher of the
external cryptography package, are modelled byte-for-byte where pytracking
depends on their behaviour.
-/

/-- A Python `str`, modelled as its sequence of characters. -/
abbrev PyStr := List Char

/-- Python `s.startswith(p)`. -/
def pyStarts (s p : PyStr) : Bool := p.isPrefixOf s

/-- The JSON-safe values pytracking embeds in a tracking link: `None`,
booleans, ints, strings, lists and dicts.  A dict is an insertion-ordered
association list, as in Python.  Floats are outside the model. -/
inductive Json where
  | null : Json
  | bool : Bool → Json
  | int : Int → Json
  | str : PyStr → Json
  | arr : List Json → Json
  | obj : List (PyStr × Json) → Json

/-- A Python dict with string keys and JSON-safe values. -/
abbrev PyDict := List (PyStr × Json)

/-- Python `d[k] = v`: an existing key keeps its position and receives the new
value, a new key is appended at the end. -/
def dictSet (d : PyDict) (k : PyStr) (v : Json) : PyDict :=
  if d.any (fun p => p.1 == k) then d.map (fun p => if p.1 == k then (p.1, v) else p)
  else d ++ [(k, v)]

/-- Python `d.update(other)`: assign every pair of `other` into `d`, in order. -/
def dictUpdate (d other : PyDict) : PyDict :=
  other.foldl (fun a p => dictSet a p.1 p.2) d

/-- Python `dict(pairs)`, which is also how `json.loads` builds an object:
a duplicated key keeps its first position and its last value. -/
def dictOfPairs (ps : PyDict) : PyDict := dictUpdate [] ps

/-- Python `d.get(k)` (`None` when absent). -/
def dictGet (d : PyDict) (k : PyStr) : Option Json :=
  match d with
  | [] => none
  | p :: t => if p.1 == k then some p.2 else dictGet t k

/-- No key occurs twice. -/
def keysDistinct : PyDict → Bool
  | [] => true
  | p :: t => !(t.any (fun q => q.1 == p.1)) && keysDistinct t

mutual
/-- Dict-likeness of a JSON value: every object inside it has pairwise
distinct keys, which is automatic for values that exist as Python data. -/
def Json.wfB : Json → Bool
  | .arr es => wfListB es
  | .obj ms => keysDistinct ms && wfEntriesB ms
  | _ => true
termination_by structural v => v

/-- Dict-likeness of every element. -/
def wfListB : List Json → Bool
  | [] => true
  | e :: t => e.wfB && wfListB t
termination_by structural l => l

/-- Dict-likeness of every value of an association list. -/
def wfEntriesB : PyDict → Bool
  | [] => true
  | (_, v) :: t => v.wfB && wfEntriesB t
termination_by structural l => l
end

/-! ### json.dumps -/

/-- The character for the decimal digit `n < 10`. -/
def digitOf (n : Nat) : Char := Char.ofNat (48 + n)

/-- Decimal digit characters of a natural number, most significant first
(the fuel, always at least the number itself plus one, only drives the
recursion). -/
def natBodyF : Nat → Nat → List Char
  | 0, _ => []
  | fuel + 1, n => if n < 10 then [digitOf n] else natBodyF fuel (n / 10) ++ [digitOf (n % 10)]

/-- Decimal digit characters of a natural number, most significant first. -/
def natBody (n : Nat) : List Char := natBodyF (n + 1) n

/-- The characters of Python `repr(i)` for an int. -/
def intBody (i : Int) : List Char :=
  if i < 0 then '-' :: natBody i.natAbs else natBody i.natAbs

/-- The lowercase hexadecimal digit for `n < 16`. -/
def hexChar (n : Nat) : Char :=
  if n < 10 then Char.ofNat (48 + n) else Char.ofNat (87 + n)

/-- Four lowercase hex digits of `n < 0x10000`, as in a `\uXXXX` escape. -/
def hexQuad (n : Nat) : List Char :=
  [hexChar (n / 4096 % 16), hexChar (n / 256 % 16), hexChar (n / 16 % 16), hexChar (n % 16)]

/-- One character as `json.dumps` (with `ensure_ascii=True`, the default)
writes it inside a string literal: printable ASCII other than the quote and
the backslash stands for itself, `\b \t \n \f \r` are written short, and
everything else becomes `\uXXXX`, a surrogate pair for the astral planes. -/
def escChar (c : Char) : List Char :=
  if c = '"' then ['\\', '"']
  else if c = '\\' then ['\\', '\\']
  else if 32 ≤ c.toNat ∧ c.toNat ≤ 126 then [c]
  else if c.toNat = 8 then ['\\', 'b']
  else if c.toNat = 9 then ['\\', 't']
  else if c.toNat = 10 then ['\\', 'n']
  else if c.toNat = 12 then ['\\', 'f']
  else if c.toNat = 13 then ['\\', 'r']
  else if c.toNat < 65536 then '\\' :: 'u' :: hexQuad c.toNat
  else
    '\\' :: 'u' :: hexQuad (55296 + (c.toNat - 65536) / 1024)
      ++ '\\' :: 'u' :: hexQuad (56320 + (c.toNat - 65536) % 1024)

/-- A string body, escaped character by character. -/
def escBody : List Char → List Char
  | [] => []
  | c :: t => escChar c ++ escBody t

/-- A JSON string literal: quote, escaped body, quote. -/
def quoteStr (s : PyStr) : List Char := '"' :: (escBody s ++ ['"'])

mutual
/-- The characters `json.dumps` produces for a value, with the default
separators `", "` and `": "`. -/
def jchars : Json → List Char
  | .null => 'n' :: ['u', 'l', 'l']
  | .bool true => 't' :: ['r', 'u', 'e']
  | .bool false => 'f' :: ['a', 'l', 's', 'e']
  | .int i => intBody i
  | .str s => quoteStr s
  | .arr es => '[' :: (jcharsItems es ++ [']'])
  | .obj ms => '{' :: (jcharsEntries ms ++ ['}'])
termination_by structural v => v

/-- The comma-space separated elements of an array. -/
def jcharsItems : List Json → List Char
  | [] => []
  | [e] => jchars e
  | e :: e2 :: t => jchars e ++ ',' :: ' ' :: jcharsItems (e2 :: t)
termination_by structural l => l

/-- The comma-space separated `"key": value` entries of an object. -/
def jcharsEntries : PyDict → List Char
  | [] => []
  | [(k, v)] => quoteStr k ++ ':' :: ' ' :: jchars v
  | (k, v) :: m :: t => quoteStr k ++ ':' :: ' ' :: jchars v ++ ',' :: ' ' :: jcharsEntries (m :: t)
termination_by structural l => l
end

/-- Python `json.dumps(v)`. -/
def jsonDumps (v : Json) : PyStr := jchars v

/-! ### json.loads -/

/-- JSON whitespace. -/
def isWsC (c : Char) : Bool := c = ' ' || c.toNat = 9 || c.toNat = 10 || c.toNat = 13

/-- Drop leading JSON whitespace. -/
def wsSkip : List Char → List Char
  | c :: t => if isWsC c then wsSkip t else c :: t
  | [] => []

/-- An ASCII decimal digit. -/
def isDigitC (c : Char) : Bool := 48 ≤ c.toNat && c.toNat ≤ 57

/-- The natural number a digit run denotes. -/
def digitsNat (ds : List Char) : Nat :=
  ds.foldl (fun a c => a * 10 + (c.toNat - 48)) 0

/-- The value of one hexadecimal digit, either case (as `json.loads` reads
one inside a `\uXXXX` escape). -/
def hexVal (c : Char) : Option Nat :=
  if 48 ≤ c.toNat ∧ c.toNat ≤ 57 then some (c.toNat - 48)
  else if 97 ≤ c.toNat ∧ c.toNat ≤ 102 then some (c.toNat - 87)
  else if 65 ≤ c.toNat ∧ c.toNat ≤ 70 then some (c.toNat - 55)
  else none

/-- The value of a four-digit hex escape. -/
def hexQuadVal (a b c d : Char) : Option Nat :=
  match hexVal a, hexVal b, hexVal c, hexVal d with
  | some x, some y, some z, some w => some (((x * 16 + y) * 16 + z) * 16 + w)
  | _, _, _, _ => none

/-- One short escape character, as `json.loads` reads it after a backslash. -/
def unescChar : Char → Option Char
  | '"' => some '"'
  | '\\' => some '\\'
  | '/' => some '/'
  | 'b' => some (Char.ofNat 8)
  | 'f' => some (Char.ofNat 12)
  | 'n' => some (Char.ofNat 10)
  | 'r' => some (Char.ofNat 13)
  | 't' => some (Char.ofNat 9)
  | _ => none

/-- Read a string body after its opening quote, strict mode: a raw control
character is an error, `\uXXXX` escapes combine surrogate pairs.  Python would
keep a lone surrogate as such a `str`; no Lean character can carry one, so the
model rejects it (no output of `escChar`, hence of `jsonDumps`, contains one). -/
def readStrBody : List Char → List Char → Option (PyStr × List Char)
  | acc, '"' :: r => some (acc.reverse, r)
  | acc, '\\' :: 'u' :: a :: b :: c :: d :: r =>
    match hexQuadVal a b c d with
    | none => none
    | some n =>
      if 55296 ≤ n ∧ n < 56320 then
        match r with
        | '\\' :: 'u' :: a2 :: b2 :: c2 :: d2 :: r2 =>
          match hexQuadVal a2 b2 c2 d2 with
          | some m =>
            if 56320 ≤ m ∧ m < 57344 then
              readStrBody (Char.ofNat (65536 + (n - 55296) * 1024 + (m - 56320)) :: acc) r2
            else none
          | none => none
        | _ => none
      else if 56320 ≤ n ∧ n < 57344 then none
      else readStrBody (Char.ofNat n :: acc) r
  | acc, '\\' :: e :: r =>
    match unescChar e with
    | some c => readStrBody (c :: acc) r
    | none => none
  | acc, c :: r => if c.toNat < 32 then none else readStrBody (c :: acc) r
  | _, [] => none

/-- Read an unsigned number.  Python's grammar rejects leading zeros; a
fractional part or an exponent would produce a float, which is outside the
modelled value type, so the model rejects those inputs. -/
def readNatNum (cs : List Char) : Option (Nat × List Char) :=
  let ds := cs.takeWhile isDigitC
  let r := cs.dropWhile isDigitC
  if ds.isEmpty then none
  else if 1 < ds.length ∧ ds.head? = some '0' then none
  else
    match r with
    | c :: _ => if c = '.' ∨ c = 'e' ∨ c = 'E' then none else some (digitsNat ds, r)
    | [] => some (digitsNat ds, r)

/-- Read a JSON number: an optional minus sign, then digits. -/
def readNum (cs : List Char) : Option (Json × List Char) :=
  match cs with
  | '-' :: r => (readNatNum r).map (fun p => (Json.int (-(p.1 : Int)), p.2))
  | _ => (readNatNum cs).map (fun p => (Json.int (p.1 : Int), p.2))

mutual
/-- Read one JSON value.  Fuel only bounds the nesting loops; `jsonLoads`
supplies more than the input length, which the round-trip theorems show is
always enough for parsing printed values. -/
def readVal : Nat → List Char → Option (Json × List Char)
  | 0, _ => none
  | fuel + 1, cs =>
    match cs with
    | 'n' :: 'u' :: 'l' :: 'l' :: r => some (.null, r)
    | 't' :: 'r' :: 'u' :: 'e' :: r => some (.bool true, r)
    | 'f' :: 'a' :: 'l' :: 's' :: 'e' :: r => some (.bool false, r)
    | '"' :: r =>
      match readStrBody [] r with
      | some (s, r2) => some (.str s, r2)
      | none => none
    | '[' :: r =>
      match wsSkip r with
      | ']' :: r2 => some (.arr [], r2)
      | r1 => readItems fuel r1 []
    | '{' :: r =>
      match wsSkip r with
      | '}' :: r2 => some (.obj [], r2)
      | r1 => readEntries fuel r1 []
    | c :: _ => if c = '-' ∨ isDigitC c then readNum cs else none
    | [] => none

/-- Read the remaining elements of a non-empty array. -/
def readItems : Nat → List Char → List Json → Option (Json × List Char)
  | 0, _, _ => none
  | fuel + 1, cs, acc =>
    match readVal fuel cs with
    | none => none
    | some (v, r) =>
      match wsSkip r with
      | ',' :: r2 => readItems fuel (wsSkip r2) (acc ++ [v])
      | ']' :: r2 => some (.arr (acc ++ [v]), r2)
      | _ => none

/-- Read the remaining entries of a non-empty object; the value is built as a
Python dict, so a duplicated key keeps its first position and last value. -/
def readEntries : Nat → List Char → PyDict → Option (Json × List Char)
  | 0, _, _ => none
  | fuel + 1, cs, acc =>
    match cs with
    | '"' :: r =>
      match readStrBody [] r with
      | none => none
      | some (k, r1) =>
        match wsSkip r1 with
        | ':' :: r2 =>
          match readVal fuel (wsSkip r2) with
          | none => none
          | some (v, r3) =>
            match wsSkip r3 with
            | ',' :: r4 => readEntries fuel (wsSkip r4) (acc ++ [(k, v)])
            | '}' :: r4 => some (.obj (dictOfPairs (acc ++ [(k, v)])), r4)
            | _ => none
        | _ => none
    | _ => none
end

/-- Python `json.loads(s)` on the modelled value type: one value, optional
whitespace around it, nothing else; `none` models `JSONDecodeError`. -/
def jsonLoads (s : PyStr) : Option Json :=
  let cs := wsSkip s
  match readVal (cs.length + 1) cs with
  | some (v, r) => if (wsSkip r).isEmpty then some v else none
  | none => none

/-! ### UTF-8 (str.encode / bytes.decode) -/

/-- The UTF-8 bytes of one character (as Python `str.encode("utf-8")`). -/
def utf8Char (c : Char) : List Nat :=
  if c.toNat < 128 then [c.toNat]
  else if c.toNat < 2048 then [192 + c.toNat / 64, 128 + c.toNat % 64]
  else if c.toNat < 65536 then
    [224 + c.toNat / 4096, 128 + c.toNat / 64 % 64, 128 + c.toNat % 64]
  else
    [240 + c.toNat / 262144, 128 + c.toNat / 4096 % 64, 128 + c.toNat / 64 % 64,
     128 + c.toNat % 64]

/-- Python `s.encode("utf-8")`. -/
def utf8Encode : PyStr → List Nat
  | [] => []
  | c :: t => utf8Char c ++ utf8Encode t

/-- Python `bs.decode("utf-8")`, strict: a stray continuation byte, a
truncated sequence, an overlong form, a surrogate or an out-of-range value
raises `UnicodeDecodeError`, modelled by `none`.  The fuel, always more than
the byte count, only drives the recursion. -/
def utf8DecodeF : Nat → List Nat → List Char → Option PyStr
  | 0, _, _ => none
  | fuel + 1, bs, acc =>
    match bs with
    | [] => some acc.reverse
    | b :: r =>
      if b < 128 then utf8DecodeF fuel r (Char.ofNat b :: acc)
      else if b < 194 then none
      else if b < 224 then
        match r with
        | b2 :: r2 =>
          if 128 ≤ b2 ∧ b2 < 192 then
            utf8DecodeF fuel r2 (Char.ofNat ((b - 192) * 64 + (b2 - 128)) :: acc)
          else none
        | [] => none
      else if b < 240 then
        match r with
        | b2 :: b3 :: r2 =>
          if (128 ≤ b2 ∧ b2 < 192) ∧ (128 ≤ b3 ∧ b3 < 192)
              ∧ (b = 224 → 160 ≤ b2) ∧ (b = 237 → b2 < 160) then
            utf8DecodeF fuel r2 (Char.ofNat ((b - 224) * 4096 + (b2 - 128) * 64 + (b3 - 128)) :: acc)
          else none
        | _ => none
      else if b < 245 then
        match r with
        | b2 :: b3 :: b4 :: r2 =>
          if (128 ≤ b2 ∧ b2 < 192) ∧ (128 ≤ b3 ∧ b3 < 192) ∧ (128 ≤ b4 ∧ b4 < 192)
              ∧ (b = 240 → 144 ≤ b2) ∧ (b = 244 → b2 < 144) then
            utf8DecodeF fuel r2
              (Char.ofNat ((b - 240) * 262144 + (b2 - 128) * 4096 + (b3 - 128) * 64 + (b4 - 128))
                :: acc)
          else none
        | _ => none
      else none

/-- Python `bs.decode("utf-8")`. -/
def utf8Decode (bs : List Nat) : Option PyStr := utf8DecodeF (bs.length + 1) bs []

/-! ### base64.urlsafe_b64encode / urlsafe_b64decode -/

/-- The urlsafe base64 alphabet character of a 6-bit value. -/
def b64Char (n : Nat) : Char :=
  if n < 26 then Char.ofNat (65 + n)
  else if n < 52 then Char.ofNat (97 + (n - 26))
  else if n < 62 then Char.ofNat (48 + (n - 52))
  else if n = 62 then '-'
  else '_'

/-- Python `base64.urlsafe_b64encode(bs)` followed by `.decode(...)`: the
encoded text of a byte string, `=`-padded to a multiple of four characters. -/
def b64urlEncode : List Nat → PyStr
  | [] => []
  | [b1] => [b64Char (b1 / 4), b64Char (b1 % 4 * 16), '=', '=']
  | [b1, b2] => [b64Char (b1 / 4), b64Char (b1 % 4 * 16 + b2 / 16), b64Char (b2 % 16 * 4), '=']
  | b1 :: b2 :: b3 :: t =>
    b64Char (b1 / 4) :: b64Char (b1 % 4 * 16 + b2 / 16)
      :: b64Char (b2 % 16 * 4 + b3 / 64) :: b64Char (b3 % 64) :: b64urlEncode t

/-- The 6-bit value of a byte under `urlsafe_b64decode`'s alphabet: the
translation `-` to `+` and `_` to `/` means both alphabets' last two
characters are accepted. -/
def b64Val (b : Nat) : Option Nat :=
  if 65 ≤ b ∧ b ≤ 90 then some (b - 65)
  else if 97 ≤ b ∧ b ≤ 122 then some (b - 97 + 26)
  else if 48 ≤ b ∧ b ≤ 57 then some (b - 48 + 52)
  else if b = 45 ∨ b = 43 then some 62
  else if b = 95 ∨ b = 47 then some 63
  else none

/-- Reassemble bytes from 6-bit values whose count is 0, 2 or 3 modulo 4
(after `=` padding was peeled off); a final group of one is an error. -/
def b64Quads : List Nat → Option (List Nat)
  | [] => some []
  | [_] => none
  | [v1, v2] => some [v1 * 4 + v2 / 16]
  | [v1, v2, v3] => some [v1 * 4 + v2 / 16, v2 % 16 * 16 + v3 / 4]
  | v1 :: v2 :: v3 :: v4 :: t =>
    (b64Quads t).map
      (fun bs => (v1 * 4 + v2 / 16) :: (v2 % 16 * 16 + v3 / 4) :: (v3 % 4 * 64 + v4) :: bs)

/-- Python `base64.urlsafe_b64decode(bs)`: bytes outside the alphabet are
discarded, the remaining count (data plus `=` padding) must be a multiple of
four, and padding may only close the data; `none` models `binascii.Error`.
(CPython's lenient scanner instead stops at the first padding and tolerates
trailing garbage; pytracking never feeds it such input.) -/
def b64urlDecodeBytes (bs : List Nat) : Option (List Nat) :=
  let valid := bs.filter (fun b => (b64Val b).isSome || b == 61)
  if valid.length % 4 = 0 then
    let dat := valid.takeWhile (fun b => b != 61)
    let pad := valid.drop dat.length
    if pad.all (fun b => b == 61) && pad.length ≤ 2 then b64Quads (dat.filterMap b64Val)
    else none
  else none

/-- `urlsafe_b64decode` of a `str`, which Python first encodes to bytes. -/
def b64urlDecodeStr (s : PyStr) : Option (List Nat) := b64urlDecodeBytes (utf8Encode s)

/-! ### The Fernet cipher (external collaborator) -/

/-- The Python exceptions the modelled pytracking paths can raise. -/
inductive PyErr where
  | binasciiError
  | invalidToken
  | unicodeDecodeError
  | jsonDecodeError
  | attributeError
  | typeError
  | valueError
deriving DecidableEq

/-- Model of `cryptography.fernet.Fernet`'s token production.  A real token is
`base64url(0x80 ‖ timestamp ‖ IV ‖ AES-CBC ciphertext ‖ HMAC)` under a 32-byte
key; only the version byte `0x80` and the invertibility under the matching key
matter to pytracking, so the model keeps the version byte and carries the key
with the plaintext, the HMAC comparison becoming a direct key comparison. -/
def fernetEncrypt (key : List Nat) (data : List Nat) : PyStr :=
  b64urlEncode (128 :: key ++ data)

/-- Model of `Fernet.decrypt`: base64-decode the token, check the version
byte and the key; any mismatch is `InvalidToken` (`none`), exactly as the
real cipher treats a structurally malformed token and a failed HMAC alike. -/
def fernetDecrypt (key : List Nat) (token : PyStr) : Option (List Nat) :=
  match b64urlDecodeStr token with
  | some (128 :: rest) =>
    if rest.take key.length = key then some (rest.drop key.length) else none
  | _ => none

/-- Model of `Fernet(key)`: the key material must be urlsafe base64 decoding
to exactly 32 bytes, else `ValueError`; the derived cipher handle is the
decoded key. -/
def fernetNew (keyStr : PyStr) : Except PyErr (List Nat) :=
  match b64urlDecodeStr keyStr with
  | some ks => if ks.length = 32 then .ok ks else .error .valueError
  | none => .error .valueError

/-! ### pytracking.tracking -/

/-- Python truthiness of an optional string (`None` and `""` are falsy). -/
def truthyStr (o : Option PyStr) : Bool :=
  match o with
  | some s => !s.isEmpty
  | none => false

/-- Python truthiness of an optional dict (`None` and `{}` are falsy). -/
def truthyDict (o : Option PyDict) : Bool :=
  match o with
  | some d => !d.isEmpty
  | none => false

/-- The pytracking `Configuration` object: the settings of `__init__` plus
the derived `encryption_key` attribute that `cache_encryption_key` maintains
(the Fernet handle, modelled as the decoded 32 key bytes). -/
structure Configuration where
  webhook_url : Option PyStr := none
  webhook_timeout_seconds : Int := 5
  include_webhook_url : Bool := false
  base_open_tracking_url : Option PyStr := none
  base_click_tracking_url : Option PyStr := none
  default_metadata : Option PyDict := none
  include_default_metadata : Bool := false
  encryption_bytestring_key : Option PyStr := none
  encoding : PyStr := "utf-8".toList
  append_slash : Bool := false
  pixel_position : PyStr := "top".toList
  encryption_key : Option (List Nat) := none

/-- `Configuration.cache_encryption_key`: build the Fernet handle from the
key material when that is truthy, else clear the handle; malformed key
material makes `Fernet(key)` raise `ValueError`. -/
def cache_encryption_key (c : Configuration) : Except PyErr Configuration :=
  if truthyStr c.encryption_bytestring_key then
    match fernetNew (c.encryption_bytestring_key.getD []) with
    | .ok k => .ok { c with encryption_key := some k }
    | .error e => .error e
  else .ok { c with encryption_key := none }

/-- A keyword-override set for `merge_with_kwargs`: `some` marks a keyword as
present.  (The Python call site accepts arbitrary names and silently ignores
unknown ones; only the settings fields reach any behaviour.) -/
structure Kwargs where
  webhook_url : Option (Option PyStr) := none
  webhook_timeout_seconds : Option Int := none
  include_webhook_url : Option Bool := none
  base_open_tracking_url : Option (Option PyStr) := none
  base_click_tracking_url : Option (Option PyStr) := none
  default_metadata : Option (Option PyDict) := none
  include_default_metadata : Option Bool := none
  encryption_bytestring_key : Option (Option PyStr) := none
  encoding : Option PyStr := none
  append_slash : Option Bool := none
  pixel_position : Option PyStr := none

/-- `Configuration.merge_with_kwargs`: deep-copy the configuration (the copy
leaves the derived `encryption_key` behind, per `__deepcopy__`), assign every
provided keyword, then re-derive the encryption key from the merged key
material. -/
def merge_with_kwargs (c : Configuration) (k : Kwargs) : Except PyErr Configuration :=
  let merged : Configuration :=
    { webhook_url := k.webhook_url.getD c.webhook_url
      webhook_timeout_seconds := k.webhook_timeout_seconds.getD c.webhook_timeout_seconds
      include_webhook_url := k.include_webhook_url.getD c.include_webhook_url
      base_open_tracking_url := k.base_open_tracking_url.getD c.base_open_tracking_url
      base_click_tracking_url := k.base_click_tracking_url.getD c.base_click_tracking_url
      default_metadata := k.default_metadata.getD c.default_metadata
      include_default_metadata := k.include_default_metadata.getD c.include_default_metadata
      encryption_bytestring_key := k.encryption_bytestring_key.getD c.encryption_bytestring_key
      encoding := k.encoding.getD c.encoding
      append_slash := k.append_slash.getD c.append_slash
      pixel_position := k.pixel_position.getD c.pixel_position
      encryption_key := none }
  cache_encryption_key merged

/-- The metadata dict the middle of `get_data_to_embed` builds: the default
metadata (only when `include_default_metadata` and truthy) overlaid by the
extra metadata (when truthy), extra winning on key collisions. -/
def embedMetadata (c : Configuration) (extra_metadata : Option PyDict) : PyDict :=
  let metadata : PyDict := []
  let metadata :=
    if c.include_default_metadata && truthyDict c.default_metadata then
      dictUpdate metadata (c.default_metadata.getD [])
    else metadata
  if truthyDict extra_metadata then dictUpdate metadata (extra_metadata.getD [])
  else metadata

/-- `Configuration.get_data_to_embed`: the payload dict, with `url`,
`metadata` and `webhook` keys set only when their data is truthy. -/
def get_data_to_embed (c : Configuration) (url_to_track : Option PyStr)
    (extra_metadata : Option PyDict) : PyDict :=
  let data : PyDict := []
  let data :=
    if truthyStr url_to_track then dictSet data "url".toList (.str (url_to_track.getD []))
    else data
  let metadata := embedMetadata c extra_metadata
  let data :=
    if !metadata.isEmpty then dictSet data "metadata".toList (.obj metadata) else data
  let data :=
    if c.include_webhook_url && truthyStr c.webhook_url then
      dictSet data "webhook".toList (.str (c.webhook_url.getD []))
    else data
  data

/-- `Configuration.get_url_encoded_data_str`: JSON-encode the payload to
bytes, then Fernet-encrypt them when an encryption key is cached, else
urlsafe-base64 them. -/
def get_url_encoded_data_str (c : Configuration) (data_to_embed : PyDict) : PyStr :=
  let json_byte_str := utf8Encode (jsonDumps (.obj data_to_embed))
  match c.encryption_key with
  | some key => fernetEncrypt key json_byte_str
  | none => b64urlEncode json_byte_str

/-- The leading-slash strip at the top of `get_tracking_result`. -/
def stripOneSlash (p : PyStr) : PyStr :=
  if pyStarts p "/".toList then p.drop 1 else p

/-- The decode stage of `get_tracking_result`: strip one leading slash,
decrypt or base64-decode, decode the bytes as text, parse the JSON.  Each
stage raises its own library error. -/
def decodePayload (c : Configuration) (encoded_url_path : PyStr) : Except PyErr Json :=
  let p := stripOneSlash encoded_url_path
  let payloadStr : Except PyErr PyStr :=
    match c.encryption_key with
    | some key =>
      match fernetDecrypt key p with
      | some bs =>
        match utf8Decode bs with
        | some s => .ok s
        | none => .error .unicodeDecodeError
      | none => .error .invalidToken
    | none =>
      match b64urlDecodeStr p with
      | some bs =>
        match utf8Decode bs with
        | some s => .ok s
        | none => .error .unicodeDecodeError
      | none => .error .binasciiError
  match payloadStr with
  | .error e => .error e
  | .ok s =>
    match jsonLoads s with
    | some v => .ok v
    | none => .error .jsonDecodeError

/-- The decode output.  `request_data` is the opaque caller dict, passed
through; `timestamp` is the clock reading taken at decode time. -/
structure TrackingResult where
  is_open_tracking : Bool
  is_click_tracking : Bool
  tracked_url : Option Json
  webhook_url : Option Json
  metadata : PyDict
  request_data : Option Json
  timestamp : Nat

/-- The result-assembly half of `get_tracking_result`: overlay the payload
metadata over the local default metadata (the latter only when
`include_default_metadata` is false and the default truthy), take the webhook
URL from the payload when `include_webhook_url` else from the local config,
and read the tracked URL out of the payload.  A payload that is not a dict
raises `AttributeError` at `data.get`; a `metadata` entry that is not a dict
raises `TypeError` at `metadata.update` (Python would accept a list of pairs
there, which no pytracking payload contains; the model treats it as the error
case). -/
def resolveTrackingResult (c : Configuration) (data : Json) (request_data : Option Json)
    (is_open : Bool) (now : Nat) : Except PyErr TrackingResult :=
  match data with
  | .obj kvs =>
    let start : PyDict :=
      if !c.include_default_metadata && truthyDict c.default_metadata then
        dictUpdate [] (c.default_metadata.getD [])
      else []
    match (match dictGet kvs "metadata".toList with
           | some (.obj m) => Except.ok m
           | none => Except.ok ([] : PyDict)
           | some _ => Except.error PyErr.typeError) with
    | .error e => .error e
    | .ok pmd =>
      .ok { is_open_tracking := is_open
            is_click_tracking := !is_open
            tracked_url := dictGet kvs "url".toList
            webhook_url :=
              if c.include_webhook_url then dictGet kvs "webhook".toList
              else c.webhook_url.map .str
            metadata := dictUpdate start pmd
            request_data := request_data
            timestamp := now }
  | _ => .error .attributeError

/-- `Configuration.get_tracking_result` (`now` models the `time.time()`
reading taken at its top). -/
def get_tracking_result (c : Configuration) (encoded_url_path : PyStr)
    (request_data : Option Json) (is_open : Bool) (now : Nat) : Except PyErr TrackingResult :=
  match decodePayload c encoded_url_path with
  | .ok data => resolveTrackingResult c data request_data is_open now
  | .error e => .error e

/-- `Configuration.get_click_tracking_url_path`: drop the first
`len(base_click_tracking_url)` characters of the URL, unconditionally; with
the base URL unset, Python's `len(None)` raises `TypeError`. -/
def get_click_tracking_url_path (c : Configuration) (url : PyStr) : Except PyErr PyStr :=
  match c.base_click_tracking_url with
  | some b => .ok (url.drop b.length)
  | none => .error .typeError

/-- `Configuration.get_open_tracking_url_path`: the open-tracking analogue,
equally unconditional. -/
def get_open_tracking_url_path (c : Configuration) (url : PyStr) : Except PyErr PyStr :=
  match c.base_open_tracking_url with
  | some b => .ok (url.drop b.length)
  | none => .error .typeError

/-- The input handling of the module-level `get_click_tracking_result`: when
the base click-tracking URL is truthy and the input starts with it, the input
is cut down by `get_click_tracking_url_path`; otherwise it is passed on
unchanged. -/
def click_path_of_input (c : Configuration) (encoded_url_path : PyStr) : PyStr :=
  if truthyStr c.base_click_tracking_url
      && pyStarts encoded_url_path (c.base_click_tracking_url.getD []) then
    encoded_url_path.drop (c.base_click_tracking_url.getD []).length
  else encoded_url_path

/-- Module-level `get_click_tracking_result`, with the effective
configuration already resolved (the kwargs merge is `merge_with_kwargs`,
modelled separately and the identity when no kwargs are given). -/
def get_click_tracking_result (c : Configuration) (encoded_url_path : PyStr)
    (request_data : Option Json) (now : Nat) : Except PyErr TrackingResult :=
  get_tracking_result c (click_path_of_input c encoded_url_path) request_data false now

/-! ### pytracking.html -/

/-- `pytracking.html._valid_link`: a link qualifies for click-tracking
rewriting iff it starts with `http://`, `https://` or `//` and, when a base
click-tracking URL is configured (the adapter always passes the
configuration), does not already start with that base. -/
def valid_link (link : PyStr) (c : Configuration) : Bool :=
  let is_valid := pyStarts link "http://".toList || pyStarts link "https://".toList
    || pyStarts link "//".toList
  if truthyStr c.base_click_tracking_url then
    is_valid && !(pyStarts link (c.base_click_tracking_url.getD []))
  else is_valid

/-! ### Number codec lemmas -/

/-- A rest that cannot extend a printed number: empty or headed by one of the
JSON delimiters that follow a value in printed output. -/
def jdelim : List Char → Bool
  | [] => true
  | c :: _ => c = ',' || c = ']' || c = '}'

theorem digitOf_spec (k : Nat) (h : k < 10) :
    (digitOf k).toNat = 48 + k ∧ isDigitC (digitOf k) = true := by
  interval_cases k <;> exact ⟨by decide, by decide⟩

theorem natBodyF_stable (n : Nat) : ∀ fuel, n < fuel → natBodyF fuel n = natBody n := by
  induction n using Nat.strongRecOn with
  | _ n ih =>
    intro fuel hf
    match fuel, hf with
    | fuel + 1, _ =>
      by_cases h : n < 10
      · rw [natBodyF, if_pos h, natBody, natBodyF, if_pos h]
      · have h1 : n / 10 < n := Nat.div_lt_self (by omega) (by omega)
        have hL : natBodyF (fuel + 1) n = natBody (n / 10) ++ [digitOf (n % 10)] := by
          rw [natBodyF, if_neg h, ih (n / 10) h1 fuel (by omega)]
        have hR : natBody n = natBody (n / 10) ++ [digitOf (n % 10)] := by
          conv_lhs => rw [natBody]
          rw [natBodyF, if_neg h, ih (n / 10) h1 n (by omega)]
        rw [hL, hR]

theorem natBody_unfold (n : Nat) :
    natBody n = if n < 10 then [digitOf n] else natBody (n / 10) ++ [digitOf (n % 10)] := by
  conv_lhs => rw [natBody]
  rw [natBodyF]
  by_cases h : n < 10
  · rw [if_pos h, if_pos h]
  · rw [if_neg h, if_neg h, natBodyF_stable (n / 10) n (by omega)]

theorem natBody_digits (n : Nat) : ∀ c ∈ natBody n, isDigitC c = true := by
  induction n using Nat.strongRecOn with
  | _ n ih =>
    rw [natBody_unfold]
    by_cases h : n < 10
    · simpa [h] using (digitOf_spec n h).2
    · simp only [if_neg h]
      intro c hc
      rcases List.mem_append.mp hc with h1 | h1
      · exact ih (n / 10) (Nat.div_lt_self (by omega) (by omega)) c h1
      · rw [List.mem_singleton] at h1
        subst h1
        exact (digitOf_spec _ (Nat.mod_lt _ (by omega))).2

theorem natBody_ne_nil (n : Nat) : natBody n ≠ [] := by
  rw [natBody_unfold]
  by_cases h : n < 10 <;> simp [h]

theorem digitsNat_natBody (n : Nat) : digitsNat (natBody n) = n := by
  induction n using Nat.strongRecOn with
  | _ n ih =>
    rw [natBody_unfold]
    by_cases h : n < 10
    · simp [h, digitsNat, (digitOf_spec n h).1]
    · simp only [if_neg h, digitsNat, List.foldl_append, List.foldl_cons, List.foldl_nil]
      have := ih (n / 10) (Nat.div_lt_self (by omega) (by omega))
      rw [digitsNat] at this
      rw [this, (digitOf_spec _ (Nat.mod_lt _ (by omega))).1]
      omega

theorem natBody_head_pos (n : Nat) (h : 1 ≤ n) : (natBody n).head? ≠ some '0' := by
  induction n using Nat.strongRecOn with
  | _ n ih =>
    rw [natBody_unfold]
    by_cases h10 : n < 10
    · interval_cases n <;> simp_all <;> decide
    · simp only [if_neg h10]
      rcases hh : natBody (n / 10) with _ | ⟨c, t⟩
      · exact absurd hh (natBody_ne_nil _)
      · have := ih (n / 10) (Nat.div_lt_self (by omega) (by omega)) (by omega)
        rw [hh] at this
        simpa using this

theorem natBody_len_one (n : Nat) (h : n < 10) : (natBody n).length = 1 := by
  rw [natBody_unfold, if_pos h]
  rfl

theorem jdelim_cases (c : Char) (t : List Char) (h : jdelim (c :: t) = true) :
    c = ',' ∨ c = ']' ∨ c = '}' := by
  simp only [jdelim, Bool.or_eq_true, decide_eq_true_eq] at h
  tauto

theorem jdelim_head (c : Char) (t : List Char) (h : jdelim (c :: t) = true) :
    isDigitC c = false ∧ c ≠ '.' ∧ c ≠ 'e' ∧ c ≠ 'E' ∧ c ≠ '-' := by
  rcases jdelim_cases c t h with h1 | h1 | h1 <;>
    (subst h1; exact ⟨by decide, by decide, by decide, by decide, by decide⟩)

theorem digitRun_split (l r : List Char) (hl : ∀ c ∈ l, isDigitC c = true)
    (hr : jdelim r = true) :
    (l ++ r).takeWhile isDigitC = l ∧ (l ++ r).dropWhile isDigitC = r := by
  induction l with
  | nil =>
    simp only [List.nil_append]
    cases r with
    | nil => simp
    | cons c t =>
      have hc : isDigitC c = false := (jdelim_head c t hr).1
      simp [List.takeWhile_cons, List.dropWhile_cons, hc]
  | cons c t ih =>
    have hc := hl c (by simp)
    have := ih (fun x hx => hl x (by simp [hx]))
    simp [List.takeWhile_cons, List.dropWhile_cons, hc, this.1, this.2]

theorem natBody_cons (n : Nat) :
    ∃ c t, natBody n = c :: t ∧ isDigitC c = true := by
  rcases hh : natBody n with _ | ⟨c, t⟩
  · exact absurd hh (natBody_ne_nil _)
  · exact ⟨c, t, rfl, natBody_digits n c (hh ▸ List.mem_cons_self ..)⟩

theorem readNatNum_natBody (n : Nat) (rest : List Char) (hr : jdelim rest = true) :
    readNatNum (natBody n ++ rest) = some (n, rest) := by
  have hsplit := digitRun_split (natBody n) rest (natBody_digits n) hr
  rw [readNatNum]
  simp only [hsplit.1, hsplit.2]
  have hne : (natBody n).isEmpty = false := by
    rcases natBody_cons n with ⟨c, t, hb, _⟩
    rw [hb]; rfl
  rw [hne]
  simp only [Bool.false_eq_true, if_false]
  have hlead : ¬ (1 < (natBody n).length ∧ (natBody n).head? = some '0') := by
    rintro ⟨hlen, hhd⟩
    by_cases h10 : n < 10
    · rw [natBody_len_one n h10] at hlen
      omega
    · exact natBody_head_pos n (by omega) hhd
  rw [if_neg hlead, digitsNat_natBody]
  cases rest with
  | nil => rfl
  | cons c2 t2 =>
    obtain ⟨_, hdot, he, hE, _⟩ := jdelim_head c2 t2 hr
    simp [hdot, he, hE]

theorem readNum_of_head (cs : List Char) (h : ∀ t, cs ≠ '-' :: t) :
    readNum cs = (readNatNum cs).map (fun p => (Json.int (p.1 : Int), p.2)) := by
  rw [readNum.eq_def]
  split
  · exact absurd rfl (h _)
  · rfl

theorem readNum_intBody (i : Int) (rest : List Char) (hr : jdelim rest = true) :
    readNum (intBody i ++ rest) = some (.int i, rest) := by
  by_cases hi : i < 0
  · rw [intBody, if_pos hi, List.cons_append, readNum, readNatNum_natBody _ _ hr]
    simp [abs_of_neg hi]
  · rw [intBody, if_neg hi]
    obtain ⟨c, t, hb, hc⟩ := natBody_cons i.natAbs
    have hnm : ∀ t2, natBody i.natAbs ++ rest ≠ '-' :: t2 := by
      intro t2 heq
      rw [hb] at heq
      have : c = '-' := (List.cons.inj heq).1
      subst this
      exact absurd hc (by decide)
    rw [readNum_of_head _ hnm, readNatNum_natBody _ _ hr]
    have hval : (i.natAbs : Int) = i := by omega
    simp [hval]

/-! ### String codec lemmas -/

theorem hexChar_val (k : Nat) (h : k < 16) : hexVal (hexChar k) = some k := by
  interval_cases k <;> decide

theorem hexQuadVal_hexQuad (n : Nat) (h : n < 65536) :
    hexQuadVal (hexChar (n / 4096 % 16)) (hexChar (n / 256 % 16))
      (hexChar (n / 16 % 16)) (hexChar (n % 16)) = some n := by
  rw [hexQuadVal, hexChar_val _ (Nat.mod_lt _ (by omega)), hexChar_val _ (Nat.mod_lt _ (by omega)),
    hexChar_val _ (Nat.mod_lt _ (by omega)), hexChar_val _ (Nat.mod_lt _ (by omega))]
  have harith : ((n / 4096 % 16 * 16 + n / 256 % 16) * 16 + n / 16 % 16) * 16 + n % 16 = n := by
    omega
  show some (((n / 4096 % 16 * 16 + n / 256 % 16) * 16 + n / 16 % 16) * 16 + n % 16) = some n
  rw [harith]

theorem char_valid_ranges (c : Char) :
    c.toNat < 55296 ∨ (57344 ≤ c.toNat ∧ c.toNat < 1114112) := by
  have h := c.valid
  rcases h with h | ⟨h1, h2⟩
  · left
    exact h
  · right
    exact ⟨h1, h2⟩

theorem readStrBody_escChar (c : Char) (acc rest : List Char) :
    readStrBody acc (escChar c ++ rest) = readStrBody (c :: acc) rest := by
  have hranges := char_valid_ranges c
  rw [escChar]
  by_cases h1 : c = '"'
  · subst h1
    rfl
  rw [if_neg h1]
  by_cases h2 : c = '\\'
  · subst h2
    rfl
  rw [if_neg h2]
  by_cases h3 : 32 ≤ c.toNat ∧ c.toNat ≤ 126
  · rw [if_pos h3]
    show readStrBody acc (c :: rest) = readStrBody (c :: acc) rest
    rw [readStrBody.eq_def]
    split
    · rename_i heq
      exact absurd (List.cons.inj heq).1 h1
    · rename_i heq
      exact absurd (List.cons.inj heq).1 h2
    · rename_i heq
      exact absurd (List.cons.inj heq).1 h2
    · rename_i c2 r2 heq
      obtain ⟨hc2, hr2⟩ := List.cons.inj heq
      subst hr2
      rw [← hc2]
      rw [if_neg (by omega)]
    · rename_i heq
      exact absurd heq (by simp)
  rw [if_neg h3]
  by_cases h4 : c.toNat = 8
  · rw [if_pos h4]
    have hc : c = Char.ofNat 8 := by
      rw [← Char.ofNat_toNat c, h4]
    subst hc
    rfl
  rw [if_neg h4]
  by_cases h5 : c.toNat = 9
  · rw [if_pos h5]
    have hc : c = Char.ofNat 9 := by
      rw [← Char.ofNat_toNat c, h5]
    subst hc
    rfl
  rw [if_neg h5]
  by_cases h6 : c.toNat = 10
  · rw [if_pos h6]
    have hc : c = Char.ofNat 10 := by
      rw [← Char.ofNat_toNat c, h6]
    subst hc
    rfl
  rw [if_neg h6]
  by_cases h7 : c.toNat = 12
  · rw [if_pos h7]
    have hc : c = Char.ofNat 12 := by
      rw [← Char.ofNat_toNat c, h7]
    subst hc
    rfl
  rw [if_neg h7]
  by_cases h8 : c.toNat = 13
  · rw [if_pos h8]
    have hc : c = Char.ofNat 13 := by
      rw [← Char.ofNat_toNat c, h8]
    subst hc
    rfl
  rw [if_neg h8]
  by_cases h9 : c.toNat < 65536
  · rw [if_pos h9]
    simp only [hexQuad, List.cons_append, List.nil_append]
    simp only [readStrBody, hexQuadVal_hexQuad _ h9]
    rw [if_neg (by omega), if_neg (by omega), Char.ofNat_toNat]
  · rw [if_neg h9]
    simp only [hexQuad, List.cons_append, List.nil_append, List.append_assoc]
    simp only [readStrBody,
      hexQuadVal_hexQuad _ (by omega : 55296 + (c.toNat - 65536) / 1024 < 65536)]
    rw [if_pos (by omega)]
    simp only [readStrBody,
      hexQuadVal_hexQuad _ (by omega : 56320 + (c.toNat - 65536) % 1024 < 65536)]
    rw [if_pos (by omega)]
    have harith : 65536 + (55296 + (c.toNat - 65536) / 1024 - 55296) * 1024
        + (56320 + (c.toNat - 65536) % 1024 - 56320) = c.toNat := by
      omega
    rw [harith, Char.ofNat_toNat]

theorem readStrBody_escBody (s : List Char) : ∀ acc rest : List Char,
    readStrBody acc (escBody s ++ '"' :: rest) = some (acc.reverse ++ s, rest) := by
  induction s with
  | nil =>
    intro acc rest
    simp [escBody, readStrBody]
  | cons c t ih =>
    intro acc rest
    rw [escBody, List.append_assoc, readStrBody_escChar, ih]
    simp

theorem readStrBody_quote (s : PyStr) (rest : List Char) :
    readStrBody [] (escBody s ++ '"' :: rest) = some (s, rest) := by
  rw [readStrBody_escBody]
  simp

/-! ### Structure lemmas for the value round trip -/

theorem wsSkip_not_ws (c : Char) (t : List Char) (h : isWsC c = false) :
    wsSkip (c :: t) = c :: t := by
  rw [wsSkip, h]
  simp

theorem natBody_head_not_special (n : Nat) :
    ∃ c t, natBody n = c :: t ∧ isWsC c = false ∧ c ≠ ']' ∧ c ≠ '}' ∧ c ≠ ','
      ∧ c ≠ 'n' ∧ c ≠ 't' ∧ c ≠ 'f' ∧ c ≠ '"' ∧ c ≠ '[' ∧ c ≠ '{' ∧ (c = '-' ∨ isDigitC c) := by
  obtain ⟨c, t, hb, hc⟩ := natBody_cons n
  refine ⟨c, t, hb, ?_, ?_, ?_, ?_, ?_, ?_, ?_, ?_, ?_, ?_, Or.inr hc⟩ <;>
    simp only [isDigitC, Bool.and_eq_true, decide_eq_true_eq] at hc
  · have hsp : c ≠ ' ' := by
      intro h
      subst h
      revert hc
      decide
    have h9 : ¬ c.toNat = 9 := by omega
    have h10 : ¬ c.toNat = 10 := by omega
    have h13 : ¬ c.toNat = 13 := by omega
    simp [isWsC, hsp, h9, h10, h13]
  all_goals (intro h; subst h; revert hc; decide)

/-- The first character of a printed value: never whitespace, never a closing
bracket, never a comma. -/
theorem jchars_head (v : Json) :
    ∃ c t, jchars v = c :: t ∧ isWsC c = false ∧ c ≠ ']' ∧ c ≠ '}' ∧ c ≠ ',' := by
  cases v with
  | null => exact ⟨'n', _, rfl, by decide, by decide, by decide, by decide⟩
  | bool b =>
    cases b with
    | true => exact ⟨'t', _, rfl, by decide, by decide, by decide, by decide⟩
    | false => exact ⟨'f', _, rfl, by decide, by decide, by decide, by decide⟩
  | str s => exact ⟨'"', _, rfl, by decide, by decide, by decide, by decide⟩
  | arr es => exact ⟨'[', _, rfl, by decide, by decide, by decide, by decide⟩
  | obj ms => exact ⟨'{', _, rfl, by decide, by decide, by decide, by decide⟩
  | int i =>
    by_cases hi : i < 0
    · refine ⟨'-', natBody i.natAbs, ?_, by decide, by decide, by decide, by decide⟩
      simp [jchars, intBody, hi]
    · obtain ⟨c, t, hb, hws, hbr, hbc, hcm, _⟩ := natBody_head_not_special i.natAbs
      refine ⟨c, t, ?_, hws, hbr, hbc, hcm⟩
      simp [jchars, intBody, hi, hb]

theorem wsSkip_jchars (v : Json) (x : List Char) :
    wsSkip (jchars v ++ x) = jchars v ++ x := by
  obtain ⟨c, t, hb, hws, _, _, _⟩ := jchars_head v
  rw [hb, List.cons_append, wsSkip_not_ws _ _ hws]

theorem dictUpdate_append (ps : PyDict) : ∀ acc : PyDict,
    (∀ p ∈ ps, (acc.any (fun q => q.1 == p.1)) = false) → keysDistinct ps = true →
    dictUpdate acc ps = acc ++ ps := by
  induction ps with
  | nil =>
    intro acc _ _
    simp [dictUpdate]
  | cons p t ih =>
    intro acc hdisj hdist
    rw [keysDistinct] at hdist
    simp only [Bool.and_eq_true, Bool.not_eq_true'] at hdist
    have hset : dictSet acc p.1 p.2 = acc ++ [(p.1, p.2)] := by
      rw [dictSet, hdisj p (by simp)]
      simp
    have hstep : dictUpdate acc (p :: t) = dictUpdate (acc ++ [(p.1, p.2)]) t := by
      rw [dictUpdate, List.foldl_cons, hset]
      rfl
    rw [hstep, ih (acc ++ [(p.1, p.2)]) ?_ hdist.2]
    · simp
    · intro q hq
      simp only [List.any_append, Bool.or_eq_false_iff]
      refine ⟨hdisj q (by simp [hq]), ?_⟩
      have := hdist.1
      rw [List.any_eq_false] at this
      have hq1 := this q hq
      simp only [List.any_cons, List.any_nil, Bool.or_false]
      simpa [BEq.comm] using hq1

theorem dictOfPairs_self (ps : PyDict) (h : keysDistinct ps = true) :
    dictOfPairs ps = ps := by
  rw [dictOfPairs, dictUpdate_append ps [] (by simp) h]
  simp

/-! ### Parser dispatch lemmas -/

theorem readVal_num_head (f : Nat) (c : Char) (t : List Char)
    (hn : c ≠ 'n') (ht : c ≠ 't') (hf : c ≠ 'f') (hq : c ≠ '"') (hk : c ≠ '[') (hb : c ≠ '{')
    (hg : c = '-' ∨ isDigitC c = true) :
    readVal (f + 1) (c :: t) = readNum (c :: t) := by
  rw [readVal]
  · rw [if_pos hg]
  all_goals (intros; simp_all)

theorem jcharsItems_head (e : Json) (es : List Json) :
    ∃ c t, jcharsItems (e :: es) = c :: t ∧ isWsC c = false ∧ c ≠ ']' := by
  obtain ⟨c, t, hb, hws, hbr, _, _⟩ := jchars_head e
  cases es with
  | nil => exact ⟨c, t, by rw [jcharsItems, hb], hws, hbr⟩
  | cons e2 t2 =>
    refine ⟨c, t ++ ',' :: ' ' :: jcharsItems (e2 :: t2), ?_, hws, hbr⟩
    rw [jcharsItems, hb]
    simp

theorem wsSkip_items (e : Json) (es : List Json) (x : List Char) :
    wsSkip (jcharsItems (e :: es) ++ x) = jcharsItems (e :: es) ++ x := by
  obtain ⟨c, t, hb, hws, _⟩ := jcharsItems_head e es
  rw [hb, List.cons_append, wsSkip_not_ws _ _ hws]

theorem readVal_arr (f : Nat) (e : Json) (es : List Json) (rest : List Char) :
    readVal (f + 1) ('[' :: (jcharsItems (e :: es) ++ ']' :: rest))
      = readItems f (jcharsItems (e :: es) ++ ']' :: rest) [] := by
  obtain ⟨c, t, hb, hws, hbr⟩ := jcharsItems_head e es
  rw [readVal, wsSkip_items]
  rw [hb, List.cons_append]
  split
  · rename_i heq
    exact absurd (List.cons.inj heq).1 hbr
  · rfl

theorem readVal_obj (f : Nat) (m : PyStr × Json) (ms : PyDict) (rest : List Char) :
    readVal (f + 1) ('{' :: (jcharsEntries (m :: ms) ++ '}' :: rest))
      = readEntries f (jcharsEntries (m :: ms) ++ '}' :: rest) [] := by
  obtain ⟨k, v⟩ := m
  have hb : ∃ t, jcharsEntries ((k, v) :: ms) = '"' :: t := by
    cases ms with
    | nil =>
      refine ⟨escBody k ++ '"' :: (':' :: ' ' :: jchars v), ?_⟩
      rw [jcharsEntries, quoteStr]
      simp
    | cons m2 t2 =>
      refine ⟨escBody k ++ '"' :: (':' :: ' ' :: jchars v ++ ',' :: ' ' :: jcharsEntries (m2 :: t2)), ?_⟩
      rw [jcharsEntries, quoteStr]
      simp
  obtain ⟨t, hb⟩ := hb
  rw [readVal, hb, List.cons_append, wsSkip_not_ws _ _ (by decide)]
  split
  · rename_i heq
    exact absurd (List.cons.inj heq).1 (by decide)
  · rfl

theorem wsSkip_drop_ws (c : Char) (t : List Char) (h : isWsC c = true) :
    wsSkip (c :: t) = wsSkip t := by
  rw [wsSkip, h]
  simp

mutual
theorem rtVal : ∀ (v : Json) (fuel : Nat) (rest : List Char),
    Json.wfB v = true → (jchars v).length < fuel → jdelim rest = true →
    readVal fuel (jchars v ++ rest) = some (v, rest)
  | .null, fuel, rest, _, hf, _ => by
    cases fuel with
    | zero => exact absurd hf (Nat.not_lt_zero _)
    | succ f => rfl
  | .bool true, fuel, rest, _, hf, _ => by
    cases fuel with
    | zero => exact absurd hf (Nat.not_lt_zero _)
    | succ f => rfl
  | .bool false, fuel, rest, _, hf, _ => by
    cases fuel with
    | zero => exact absurd hf (Nat.not_lt_zero _)
    | succ f => rfl
  | .int i, fuel, rest, _, hf, hr => by
    cases fuel with
    | zero => exact absurd hf (Nat.not_lt_zero _)
    | succ f =>
      have hj : jchars (.int i) = intBody i := rfl
      rw [hj]
      by_cases hi : i < 0
      · have harg : intBody i ++ rest = '-' :: (natBody i.natAbs ++ rest) := by
          simp [intBody, hi]
        rw [harg, readVal_num_head f '-' _ (by decide) (by decide) (by decide) (by decide)
          (by decide) (by decide) (Or.inl rfl), ← harg, readNum_intBody i rest hr]
      · obtain ⟨c, t, hb, hws, hbr, hbc, hcm, hn, ht2, hf2, hq, hk, hbrace, hg⟩ :=
          natBody_head_not_special i.natAbs
        have harg : intBody i ++ rest = c :: (t ++ rest) := by
          simp [intBody, hi, hb]
        rw [harg, readVal_num_head f c _ hn ht2 hf2 hq hk hbrace hg, ← harg,
          readNum_intBody i rest hr]
  | .str s, fuel, rest, _, hf, _ => by
    cases fuel with
    | zero => exact absurd hf (Nat.not_lt_zero _)
    | succ f =>
      have harg : jchars (.str s) ++ rest = '"' :: (escBody s ++ '"' :: rest) := by
        simp [jchars, quoteStr]
      rw [harg, readVal, readStrBody_quote]
  | .arr [], fuel, rest, _, hf, _ => by
    cases fuel with
    | zero => exact absurd hf (Nat.not_lt_zero _)
    | succ f => rfl
  | .arr (e :: es), fuel, rest, hw, hf, _ => by
    cases fuel with
    | zero => exact absurd hf (Nat.not_lt_zero _)
    | succ f =>
      have hw2 : wfListB (e :: es) = true := by
        simpa [Json.wfB] using hw
      have hf2 : (jcharsItems (e :: es)).length + 1 < f := by
        simp only [jchars, List.length_cons, List.length_append, List.length_singleton] at hf
        omega
      have harg : jchars (.arr (e :: es)) ++ rest
          = '[' :: (jcharsItems (e :: es) ++ ']' :: rest) := by
        simp [jchars]
      rw [harg, readVal_arr]
      have := rtItems e es f rest [] hw2 hf2
      simpa using this
  | .obj [], fuel, rest, _, hf, _ => by
    cases fuel with
    | zero => exact absurd hf (Nat.not_lt_zero _)
    | succ f => rfl
  | .obj (m :: ms), fuel, rest, hw, hf, _ => by
    cases fuel with
    | zero => exact absurd hf (Nat.not_lt_zero _)
    | succ f =>
      have hkd : keysDistinct (m :: ms) = true := by
        simp only [Json.wfB, Bool.and_eq_true] at hw
        exact hw.1
      have hw2 : wfEntriesB (m :: ms) = true := by
        simp only [Json.wfB, Bool.and_eq_true] at hw
        exact hw.2
      have hf2 : (jcharsEntries (m :: ms)).length + 1 < f := by
        simp only [jchars, List.length_cons, List.length_append, List.length_singleton] at hf
        omega
      have harg : jchars (.obj (m :: ms)) ++ rest
          = '{' :: (jcharsEntries (m :: ms) ++ '}' :: rest) := by
        simp [jchars]
      rw [harg, readVal_obj]
      have := rtEntries m ms f rest [] hw2 hf2
      rw [this]
      simp [dictOfPairs_self _ hkd]
termination_by v fuel rest hw hf hr => sizeOf v

theorem rtItems : ∀ (e : Json) (es : List Json) (fuel : Nat) (rest : List Char) (acc : List Json),
    wfListB (e :: es) = true → (jcharsItems (e :: es)).length + 1 < fuel →
    readItems fuel (jcharsItems (e :: es) ++ ']' :: rest) acc = some (.arr (acc ++ e :: es), rest)
  | e, [], fuel, rest, acc, hw, hf => by
    cases fuel with
    | zero => exact absurd hf (Nat.not_lt_zero _)
    | succ f =>
      have hwe : Json.wfB e = true := by
        simpa [wfListB] using hw
      have hfe : (jchars e).length < f := by
        have : jcharsItems [e] = jchars e := rfl
        rw [this] at hf
        omega
      rw [readItems, show jcharsItems [e] = jchars e from rfl,
        rtVal e f (']' :: rest) hwe hfe rfl]
      rfl
  | e, e2 :: t, fuel, rest, acc, hw, hf => by
    cases fuel with
    | zero => exact absurd hf (Nat.not_lt_zero _)
    | succ f =>
      rw [wfListB, Bool.and_eq_true] at hw
      have hwe : Json.wfB e = true := hw.1
      have hwt : wfListB (e2 :: t) = true := hw.2
      have hlen : jcharsItems (e :: e2 :: t)
          = jchars e ++ ',' :: ' ' :: jcharsItems (e2 :: t) := rfl
      have hfe : (jchars e).length < f := by
        rw [hlen] at hf
        simp only [List.length_append, List.length_cons] at hf
        omega
      have hft : (jcharsItems (e2 :: t)).length + 1 < f := by
        rw [hlen] at hf
        simp only [List.length_append, List.length_cons] at hf
        omega
      have harg : jcharsItems (e :: e2 :: t) ++ ']' :: rest
          = jchars e ++ ',' :: ' ' :: (jcharsItems (e2 :: t) ++ ']' :: rest) := by
        rw [hlen]
        simp
      rw [readItems, harg,
        rtVal e f (',' :: ' ' :: (jcharsItems (e2 :: t) ++ ']' :: rest)) hwe hfe rfl]
      have hws : wsSkip (' ' :: (jcharsItems (e2 :: t) ++ ']' :: rest))
          = jcharsItems (e2 :: t) ++ ']' :: rest := by
        rw [wsSkip_drop_ws _ _ (by decide), wsSkip_items]
      simp only [wsSkip_not_ws ',' _ (by decide), hws]
      rw [rtItems e2 t f rest (acc ++ [e]) hwt hft]
      simp
termination_by e es fuel rest acc hw hf => sizeOf e + sizeOf es + 1

theorem rtEntries : ∀ (m : PyStr × Json) (ms : PyDict) (fuel : Nat) (rest : List Char)
    (acc : PyDict),
    wfEntriesB (m :: ms) = true → (jcharsEntries (m :: ms)).length + 1 < fuel →
    readEntries fuel (jcharsEntries (m :: ms) ++ '}' :: rest) acc
      = some (.obj (dictOfPairs (acc ++ m :: ms)), rest)
  | (k, v), [], fuel, rest, acc, hw, hf => by
    cases fuel with
    | zero => exact absurd hf (Nat.not_lt_zero _)
    | succ f =>
      have hwv : Json.wfB v = true := by
        simpa [wfEntriesB] using hw
      have hfv : (jchars v).length < f := by
        have : jcharsEntries [(k, v)] = quoteStr k ++ ':' :: ' ' :: jchars v := rfl
        rw [this] at hf
        simp only [List.length_append, List.length_cons, quoteStr] at hf
        omega
      have harg : jcharsEntries [(k, v)] ++ '}' :: rest
          = '"' :: (escBody k ++ '"' :: (':' :: ' ' :: (jchars v ++ '}' :: rest))) := by
        show (quoteStr k ++ ':' :: ' ' :: jchars v) ++ '}' :: rest = _
        rw [quoteStr]
        simp
      rw [harg, readEntries]
      simp only [readStrBody_quote]
      rw [wsSkip_not_ws ':' _ (by decide)]
      simp only [wsSkip_drop_ws ' ' _ (by decide), wsSkip_jchars,
        rtVal v f ('}' :: rest) hwv hfv rfl]
      rfl
  | (k, v), m2 :: t2, fuel, rest, acc, hw, hf => by
    cases fuel with
    | zero => exact absurd hf (Nat.not_lt_zero _)
    | succ f =>
      rw [wfEntriesB, Bool.and_eq_true] at hw
      have hwv : Json.wfB v = true := hw.1
      have hwt : wfEntriesB (m2 :: t2) = true := hw.2
      have hlen : jcharsEntries ((k, v) :: m2 :: t2)
          = quoteStr k ++ ':' :: ' ' :: jchars v ++ ',' :: ' ' :: jcharsEntries (m2 :: t2) := rfl
      have hfv : (jchars v).length < f := by
        rw [hlen] at hf
        simp only [List.length_append, List.length_cons, quoteStr] at hf
        omega
      have hft : (jcharsEntries (m2 :: t2)).length + 1 < f := by
        rw [hlen] at hf
        simp only [List.length_append, List.length_cons, quoteStr] at hf
        omega
      have harg : jcharsEntries ((k, v) :: m2 :: t2) ++ '}' :: rest
          = '"' :: (escBody k ++ '"' :: (':' :: ' '
              :: (jchars v ++ ',' :: ' ' :: (jcharsEntries (m2 :: t2) ++ '}' :: rest)))) := by
        rw [hlen, quoteStr]
        simp
      rw [harg, readEntries]
      simp only [readStrBody_quote]
      rw [wsSkip_not_ws ':' _ (by decide)]
      simp only [wsSkip_drop_ws ' ' _ (by decide), wsSkip_jchars,
        rtVal v f (',' :: ' ' :: (jcharsEntries (m2 :: t2) ++ '}' :: rest)) hwv hfv rfl]
      have hws : wsSkip (' ' :: (jcharsEntries (m2 :: t2) ++ '}' :: rest))
          = jcharsEntries (m2 :: t2) ++ '}' :: rest := by
        obtain ⟨k2, v2⟩ := m2
        have hq : ∃ t3, jcharsEntries ((k2, v2) :: t2) = '"' :: t3 := by
          cases t2 with
          | nil =>
            refine ⟨escBody k2 ++ '"' :: (':' :: ' ' :: jchars v2), ?_⟩
            rw [jcharsEntries, quoteStr]
            simp
          | cons m3 t3 =>
            refine ⟨escBody k2 ++ '"' :: (':' :: ' ' :: jchars v2
              ++ ',' :: ' ' :: jcharsEntries (m3 :: t3)), ?_⟩
            rw [jcharsEntries, quoteStr]
            simp
        obtain ⟨t3, hq⟩ := hq
        rw [wsSkip_drop_ws _ _ (by decide), hq, List.cons_append,
          wsSkip_not_ws _ _ (by decide)]
      simp only [wsSkip_not_ws ',' _ (by decide), hws]
      rw [rtEntries m2 t2 f rest (acc ++ [(k, v)]) hwt hft]
      simp
termination_by m ms fuel rest acc hw hf => sizeOf m + sizeOf ms + 1
end

theorem wsSkip_jchars_nil (v : Json) : wsSkip (jchars v) = jchars v := by
  have := wsSkip_jchars v []
  simpa using this

/-- Whole-grammar codec round trip: `json.loads` recovers what `json.dumps`
wrote, for every dict-like value. -/
theorem jsonLoads_jsonDumps (v : Json) (h : Json.wfB v = true) :
    jsonLoads (jsonDumps v) = some v := by
  have hv := rtVal v ((jchars v).length + 1) [] h (by omega) rfl
  rw [List.append_nil] at hv
  rw [jsonLoads, jsonDumps]
  simp [wsSkip_jchars_nil, hv, wsSkip]

/-! ### UTF-8 lemmas -/

theorem toNat_ofNat_valid (n : Nat) (h : n < 55296) : (Char.ofNat n).toNat = n := by
  rw [Char.ofNat]
  simp only [Nat.isValidChar, h, true_or, dite_true]
  rw [Char.ofNatAux]
  simp only [Char.toNat, UInt32.toNat]
  exact BitVec.toNat_ofNatLt n _

theorem utf8DecodeF_ascii (s : PyStr) (h : ∀ c ∈ s, c.toNat < 128) :
    ∀ (fuel : Nat) (acc : List Char), (utf8Encode s).length < fuel →
    utf8DecodeF fuel (utf8Encode s) acc = some (acc.reverse ++ s) := by
  induction s with
  | nil =>
    intro fuel acc hf
    match fuel, hf with
    | fuel + 1, _ =>
      rw [show utf8Encode [] = [] from rfl, utf8DecodeF]
      simp
  | cons c t ih =>
    intro fuel acc hf
    have henc : utf8Encode (c :: t) = c.toNat :: utf8Encode t := by
      rw [utf8Encode, utf8Char, if_pos (h c (by simp)), List.singleton_append]
    rw [henc] at hf ⊢
    match fuel, hf with
    | fuel + 1, hf2 =>
      rw [utf8DecodeF.eq_def]
      simp only [if_pos (h c (by simp)), Char.ofNat_toNat]
      rw [ih (fun x hx => h x (by simp [hx])) fuel (c :: acc) (by
        simp only [List.length_cons] at hf2
        omega)]
      simp

theorem utf8_roundtrip_ascii (s : PyStr) (h : ∀ c ∈ s, c.toNat < 128) :
    utf8Decode (utf8Encode s) = some s := by
  rw [utf8Decode, utf8DecodeF_ascii s h _ [] (by omega)]
  simp

theorem utf8Decode_cont_fail (r : List Nat) : utf8Decode (128 :: r) = none := by
  rw [utf8Decode]
  rw [show (128 :: r).length + 1 = (r.length + 1) + 1 from by simp]
  rw [utf8DecodeF.eq_def]
  norm_num

theorem utf8Encode_ascii_map (s : PyStr) (h : ∀ c ∈ s, c.toNat < 128) :
    utf8Encode s = s.map Char.toNat := by
  induction s with
  | nil => rfl
  | cons c t ih =>
    rw [utf8Encode, utf8Char, if_pos (h c (by simp)), ih (fun x hx => h x (by simp [hx]))]
    simp

/-! ### ASCII bounds of the printer -/

theorem hexChar_lt128 (k : Nat) (h : k < 16) : (hexChar k).toNat < 128 := by
  rw [hexChar]
  split_ifs with h1
  · rw [toNat_ofNat_valid _ (by omega)]
    omega
  · rw [toNat_ofNat_valid _ (by omega)]
    omega

theorem hexQuad_ascii (n : Nat) (d : Char) (hd : d ∈ hexQuad n) : d.toNat < 128 := by
  simp only [hexQuad, List.mem_cons, List.not_mem_nil, or_false] at hd
  rcases hd with h | h | h | h <;>
    (subst h; exact hexChar_lt128 _ (Nat.mod_lt _ (by omega)))

theorem escChar_ascii (x c : Char) (hc : c ∈ escChar x) : c.toNat < 128 := by
  rw [escChar] at hc
  split_ifs at hc with h1 h2 h3 h4 h5 h6 h7 h8 h9
  · simp only [List.mem_cons, List.not_mem_nil, or_false] at hc
    rcases hc with h | h <;> (subst h; decide)
  · simp only [List.mem_cons, List.not_mem_nil, or_false] at hc
    rcases hc with h | h <;> (subst h; decide)
  · simp only [List.mem_singleton] at hc
    subst hc
    omega
  · simp only [List.mem_cons, List.not_mem_nil, or_false] at hc
    rcases hc with h | h <;> (subst h; decide)
  · simp only [List.mem_cons, List.not_mem_nil, or_false] at hc
    rcases hc with h | h <;> (subst h; decide)
  · simp only [List.mem_cons, List.not_mem_nil, or_false] at hc
    rcases hc with h | h <;> (subst h; decide)
  · simp only [List.mem_cons, List.not_mem_nil, or_false] at hc
    rcases hc with h | h <;> (subst h; decide)
  · simp only [List.mem_cons, List.not_mem_nil, or_false] at hc
    rcases hc with h | h <;> (subst h; decide)
  · simp only [List.mem_cons] at hc
    rcases hc with h | h | h
    · subst h; decide
    · subst h; decide
    · exact hexQuad_ascii _ _ h
  · simp only [List.cons_append, List.mem_cons, List.mem_append] at hc
    rcases hc with h | h | h | h | h | h <;>
      first
        | (subst h; decide)
        | exact hexQuad_ascii _ _ h

theorem escBody_ascii (s : List Char) (c : Char) (hc : c ∈ escBody s) : c.toNat < 128 := by
  induction s with
  | nil => simp [escBody] at hc
  | cons x t ih =>
    rw [escBody] at hc
    rcases List.mem_append.mp hc with h | h
    · exact escChar_ascii x c h
    · exact ih h

theorem quoteStr_ascii (s : PyStr) (c : Char) (hc : c ∈ quoteStr s) : c.toNat < 128 := by
  rw [quoteStr] at hc
  simp only [List.mem_cons, List.mem_append, List.mem_singleton, List.not_mem_nil,
    or_false] at hc
  rcases hc with h | h | h
  · subst h; decide
  · exact escBody_ascii s c h
  · subst h; decide

theorem natBody_ascii (n : Nat) (c : Char) (hc : c ∈ natBody n) : c.toNat < 128 := by
  have := natBody_digits n c hc
  simp only [isDigitC, Bool.and_eq_true, decide_eq_true_eq] at this
  omega

theorem intBody_ascii (i : Int) (c : Char) (hc : c ∈ intBody i) : c.toNat < 128 := by
  rw [intBody] at hc
  split_ifs at hc
  · simp only [List.mem_cons] at hc
    rcases hc with h | h
    · subst h; decide
    · exact natBody_ascii _ c h
  · exact natBody_ascii _ c hc

mutual
theorem jchars_ascii : ∀ (v : Json), ∀ c ∈ jchars v, c.toNat < 128
  | .null => by
    intro c hc
    simp only [jchars, List.mem_cons, List.not_mem_nil, or_false] at hc
    rcases hc with h | h | h | h <;> (subst h; decide)
  | .bool true => by
    intro c hc
    simp only [jchars, List.mem_cons, List.not_mem_nil, or_false] at hc
    rcases hc with h | h | h | h <;> (subst h; decide)
  | .bool false => by
    intro c hc
    simp only [jchars, List.mem_cons, List.not_mem_nil, or_false] at hc
    rcases hc with h | h | h | h | h <;> (subst h; decide)
  | .int i => fun c hc => intBody_ascii i c hc
  | .str s => fun c hc => quoteStr_ascii s c hc
  | .arr es => by
    intro c hc
    simp only [jchars, List.mem_cons, List.mem_append, List.mem_singleton, List.not_mem_nil,
      or_false] at hc
    rcases hc with h | h | h
    · subst h; decide
    · exact jcharsItems_ascii es c h
    · subst h; decide
  | .obj ms => by
    intro c hc
    simp only [jchars, List.mem_cons, List.mem_append, List.mem_singleton, List.not_mem_nil,
      or_false] at hc
    rcases hc with h | h | h
    · subst h; decide
    · exact jcharsEntries_ascii ms c h
    · subst h; decide
termination_by v => sizeOf v

theorem jcharsItems_ascii : ∀ (es : List Json), ∀ c ∈ jcharsItems es, c.toNat < 128
  | [] => by
    intro c hc
    simp [jcharsItems] at hc
  | [e] => by
    intro c hc
    rw [show jcharsItems [e] = jchars e from rfl] at hc
    exact jchars_ascii e c hc
  | e :: e2 :: t => by
    intro c hc
    rw [show jcharsItems (e :: e2 :: t)
      = jchars e ++ ',' :: ' ' :: jcharsItems (e2 :: t) from rfl] at hc
    simp only [List.mem_append, List.mem_cons] at hc
    rcases hc with h | h | h | h
    · exact jchars_ascii e c h
    · subst h; decide
    · subst h; decide
    · exact jcharsItems_ascii (e2 :: t) c h
termination_by es => sizeOf es

theorem jcharsEntries_ascii : ∀ (ms : PyDict), ∀ c ∈ jcharsEntries ms, c.toNat < 128
  | [] => by
    intro c hc
    simp [jcharsEntries] at hc
  | [(k, v)] => by
    intro c hc
    rw [show jcharsEntries [(k, v)] = quoteStr k ++ ':' :: ' ' :: jchars v from rfl] at hc
    simp only [List.mem_append, List.mem_cons] at hc
    rcases hc with h | h | h | h
    · exact quoteStr_ascii k c h
    · subst h; decide
    · subst h; decide
    · exact jchars_ascii v c h
  | (k, v) :: m :: t => by
    intro c hc
    rw [show jcharsEntries ((k, v) :: m :: t)
      = quoteStr k ++ ':' :: ' ' :: jchars v ++ ',' :: ' ' :: jcharsEntries (m :: t) from rfl] at hc
    simp only [List.mem_append, List.mem_cons, or_assoc] at hc
    rcases hc with h | h | h | h | h | h | h <;>
      first
        | (subst h; decide)
        | exact quoteStr_ascii k c h
        | exact jchars_ascii v c h
        | exact jcharsEntries_ascii (m :: t) c h
termination_by ms => sizeOf ms
end

/-! ### base64 lemmas -/

theorem b64Val_b64Char (k : Nat) (h : k < 64) : b64Val (b64Char k).toNat = some k := by
  by_cases h1 : k < 26
  · rw [b64Char, if_pos h1, toNat_ofNat_valid _ (by omega), b64Val, if_pos (by omega)]
    congr 1
    omega
  by_cases h2 : k < 52
  · rw [b64Char, if_neg h1, if_pos h2, toNat_ofNat_valid _ (by omega), b64Val,
      if_neg (by omega), if_pos (by omega)]
    congr 1
    omega
  by_cases h3 : k < 62
  · rw [b64Char, if_neg h1, if_neg h2, if_pos h3, toNat_ofNat_valid _ (by omega), b64Val,
      if_neg (by omega), if_neg (by omega), if_pos (by omega)]
    congr 1
    omega
  by_cases h4 : k = 62
  · subst h4
    decide
  · have h63 : k = 63 := by omega
    subst h63
    decide

theorem b64Char_ne_61 (k : Nat) (h : k < 64) : (b64Char k).toNat ≠ 61 := by
  intro he
  have hv := b64Val_b64Char k h
  rw [he] at hv
  have h61 : b64Val 61 = none := rfl
  rw [h61] at hv
  exact Option.noConfusion hv

theorem b64Char_ne_47 (k : Nat) (h : k < 64) : (b64Char k).toNat ≠ 47 := by
  intro he
  have hv := b64Val_b64Char k h
  rw [he] at hv
  have h47 : b64Val 47 = some 63 := rfl
  rw [h47] at hv
  have hk : k = 63 := by
    injection hv with hv2
    omega
  subst hk
  exact absurd he (by decide)

theorem b64Char_lt128 (k : Nat) (h : k < 64) : (b64Char k).toNat < 128 := by
  rw [b64Char]
  split_ifs with h1 h2 h3 h4
  · rw [toNat_ofNat_valid _ (by omega)]
    omega
  · rw [toNat_ofNat_valid _ (by omega)]
    omega
  · rw [toNat_ofNat_valid _ (by omega)]
    omega
  · decide
  · decide

/-- The 6-bit values of the data characters of an encoded byte string
(the characters before the padding); proof support for the round trip. -/
def b64Vals : List Nat → List Nat
  | [] => []
  | [b1] => [b1 / 4, b1 % 4 * 16]
  | [b1, b2] => [b1 / 4, b1 % 4 * 16 + b2 / 16, b2 % 16 * 4]
  | b1 :: b2 :: b3 :: t =>
    (b1 / 4) :: (b1 % 4 * 16 + b2 / 16) :: (b2 % 16 * 4 + b3 / 64) :: (b3 % 64) :: b64Vals t

/-- How many `=` characters the encoder appends; proof support. -/
def b64PadLen : List Nat → Nat
  | [] => 0
  | [_] => 2
  | [_, _] => 1
  | _ :: _ :: _ :: t => b64PadLen t

theorem b64PadLen_le_two : ∀ bs : List Nat, b64PadLen bs ≤ 2
  | [] => by rw [b64PadLen]; omega
  | [_] => by rw [b64PadLen]
  | [_, _] => by rw [b64PadLen]; omega
  | _ :: _ :: _ :: t => by
    rw [b64PadLen]
    exact b64PadLen_le_two t

theorem b64Vals_lt64 : ∀ bs : List Nat, (∀ b ∈ bs, b < 256) → ∀ v ∈ b64Vals bs, v < 64
  | [], _ => by simp [b64Vals]
  | [b1], h => by
    have hb1 : b1 < 256 := h b1 (by simp)
    simp only [b64Vals, List.mem_cons, List.not_mem_nil, or_false]
    rintro v (rfl | rfl) <;> omega
  | [b1, b2], h => by
    have hb1 : b1 < 256 := h b1 (by simp)
    have hb2 : b2 < 256 := h b2 (by simp)
    simp only [b64Vals, List.mem_cons, List.not_mem_nil, or_false]
    rintro v (rfl | rfl | rfl) <;> omega
  | b1 :: b2 :: b3 :: t, h => by
    have hb1 : b1 < 256 := h b1 (by simp)
    have hb2 : b2 < 256 := h b2 (by simp)
    have hb3 : b3 < 256 := h b3 (by simp)
    intro v hv
    rw [b64Vals] at hv
    simp only [List.mem_cons] at hv
    rcases hv with rfl | rfl | rfl | rfl | hv
    · omega
    · omega
    · omega
    · omega
    · exact b64Vals_lt64 t (fun b hb => h b (by simp [hb])) v hv

theorem b64Quads_b64Vals : ∀ bs : List Nat, (∀ b ∈ bs, b < 256) →
    b64Quads (b64Vals bs) = some bs
  | [], _ => rfl
  | [b1], h => by
    have hb1 : b1 < 256 := h b1 (by simp)
    rw [b64Vals, b64Quads]
    congr 2
    omega
  | [b1, b2], h => by
    have hb1 : b1 < 256 := h b1 (by simp)
    have hb2 : b2 < 256 := h b2 (by simp)
    rw [b64Vals, b64Quads]
    congr 3
    · omega
    · omega
  | b1 :: b2 :: b3 :: t, h => by
    have hb1 : b1 < 256 := h b1 (by simp)
    have hb2 : b2 < 256 := h b2 (by simp)
    have hb3 : b3 < 256 := h b3 (by simp)
    rw [b64Vals, b64Quads, b64Quads_b64Vals t (fun b hb => h b (by simp [hb]))]
    simp only [Option.map_some']
    congr 4
    · omega
    · omega
    · omega

theorem b64urlEncode_shape : ∀ bs : List Nat,
    (b64urlEncode bs).map Char.toNat
      = (b64Vals bs).map (fun v => (b64Char v).toNat) ++ List.replicate (b64PadLen bs) 61
  | [] => rfl
  | [b1] => by
    rw [b64urlEncode, b64Vals, b64PadLen]
    rfl
  | [b1, b2] => by
    rw [b64urlEncode, b64Vals, b64PadLen]
    rfl
  | b1 :: b2 :: b3 :: t => by
    rw [b64urlEncode, b64Vals, b64PadLen]
    simp only [List.map_cons]
    rw [b64urlEncode_shape t]
    simp

theorem b64urlEncode_ascii : ∀ (bs : List Nat), (∀ b ∈ bs, b < 256) →
    ∀ c ∈ b64urlEncode bs, c.toNat < 128 := by
  intro bs h c hc
  have hshape := b64urlEncode_shape bs
  have hmem : c.toNat ∈ (b64urlEncode bs).map Char.toNat := List.mem_map_of_mem _ hc
  rw [hshape] at hmem
  rcases List.mem_append.mp hmem with h1 | h1
  · rcases List.mem_map.mp h1 with ⟨v, hv, he⟩
    rw [← he]
    exact b64Char_lt128 v (b64Vals_lt64 bs h v hv)
  · rw [List.eq_of_mem_replicate h1]
    omega

theorem takeWhile_append_eq {p : Nat → Bool} (l r : List Nat)
    (hl : ∀ x ∈ l, p x = true) (hr : r.takeWhile p = []) :
    (l ++ r).takeWhile p = l := by
  induction l with
  | nil => simpa using hr
  | cons x t ih =>
    rw [List.cons_append, List.takeWhile_cons, hl x (by simp),
      ih (fun y hy => hl y (by simp [hy]))]
    simp

theorem filterMap_b64Char_vals (l : List Nat) (h : ∀ v ∈ l, v < 64) :
    List.filterMap b64Val (l.map (fun v => (b64Char v).toNat)) = l := by
  induction l with
  | nil => rfl
  | cons v t ih =>
    rw [List.map_cons, List.filterMap_cons, b64Val_b64Char v (h v (by simp))]
    rw [ih (fun y hy => h y (by simp [hy]))]

theorem b64_len_mod4 : ∀ bs : List Nat, ((b64Vals bs).length + b64PadLen bs) % 4 = 0
  | [] => by simp [b64Vals, b64PadLen]
  | [_] => by simp [b64Vals, b64PadLen]
  | [_, _] => by simp [b64Vals, b64PadLen]
  | b1 :: b2 :: b3 :: t => by
    rw [b64Vals, b64PadLen]
    simp only [List.length_cons]
    have := b64_len_mod4 t
    omega

/-- base64 byte-level round trip: decoding the encoder's output recovers the
byte string. -/
theorem b64_bytes_roundtrip (bs : List Nat) (h : ∀ b ∈ bs, b < 256) :
    b64urlDecodeBytes ((b64urlEncode bs).map Char.toNat) = some bs := by
  rw [b64urlEncode_shape bs, b64urlDecodeBytes]
  have hdata_ok : ∀ x ∈ (b64Vals bs).map (fun v => (b64Char v).toNat),
      ((b64Val x).isSome || x == 61) = true := by
    intro x hx
    rcases List.mem_map.mp hx with ⟨v, hv, he⟩
    rw [← he, b64Val_b64Char v (b64Vals_lt64 bs h v hv)]
    rfl
  have hpad_ok : ∀ x ∈ List.replicate (b64PadLen bs) 61,
      ((b64Val x).isSome || x == 61) = true := by
    intro x hx
    rw [List.eq_of_mem_replicate hx]
    rfl
  have hfilter : List.filter (fun b => (b64Val b).isSome || b == 61)
      ((b64Vals bs).map (fun v => (b64Char v).toNat) ++ List.replicate (b64PadLen bs) 61)
      = (b64Vals bs).map (fun v => (b64Char v).toNat) ++ List.replicate (b64PadLen bs) 61 := by
    rw [List.filter_eq_self]
    intro x hx
    rcases List.mem_append.mp hx with h1 | h1
    · exact hdata_ok x h1
    · exact hpad_ok x h1
  rw [hfilter]
  have hlen : ((b64Vals bs).map (fun v => (b64Char v).toNat)
      ++ List.replicate (b64PadLen bs) 61).length % 4 = 0 := by
    simp only [List.length_append, List.length_map, List.length_replicate]
    exact b64_len_mod4 bs
  rw [if_pos hlen]
  have hdat : ((b64Vals bs).map (fun v => (b64Char v).toNat)
      ++ List.replicate (b64PadLen bs) 61).takeWhile (fun b => b != 61)
      = (b64Vals bs).map (fun v => (b64Char v).toNat) := by
    apply takeWhile_append_eq
    · intro x hx
      rcases List.mem_map.mp hx with ⟨v, hv, he⟩
      rw [← he]
      simp [b64Char_ne_61 v (b64Vals_lt64 bs h v hv)]
    · cases hpl : b64PadLen bs with
      | zero => rfl
      | succ n => simp [List.replicate_succ]
  rw [hdat]
  simp only [List.drop_left]
  have hpad2 : (List.replicate (b64PadLen bs) 61).all (fun b => b == 61) = true := by
    rw [List.all_eq_true]
    intro x hx
    simp [List.eq_of_mem_replicate hx]
  rw [hpad2, List.length_replicate]
  have hple := b64PadLen_le_two bs
  rw [if_pos (by simpa using hple)]
  rw [filterMap_b64Char_vals _ (b64Vals_lt64 bs h)]
  exact b64Quads_b64Vals bs h

/-- base64 round trip at the string level, as pytracking composes it. -/
theorem b64_roundtrip (bs : List Nat) (h : ∀ b ∈ bs, b < 256) :
    b64urlDecodeStr (b64urlEncode bs) = some bs := by
  rw [b64urlDecodeStr, utf8Encode_ascii_map _ (b64urlEncode_ascii bs h), b64_bytes_roundtrip bs h]

/-! ### Pipeline lemmas -/

theorem utf8Char_lt256 (c : Char) : ∀ b ∈ utf8Char c, b < 256 := by
  have hv := char_valid_ranges c
  rw [utf8Char]
  split_ifs with h1 h2 h3 <;>
    (intro b hb
     simp only [List.mem_cons, List.not_mem_nil, or_false] at hb) <;>
    (rcases hb with rfl | rfl | rfl | rfl <;> omega)

theorem utf8Encode_lt256 (s : PyStr) : ∀ b ∈ utf8Encode s, b < 256 := by
  induction s with
  | nil => simp [utf8Encode]
  | cons c t ih =>
    intro b hb
    rw [utf8Encode] at hb
    rcases List.mem_append.mp hb with h | h
    · exact utf8Char_lt256 c b h
    · exact ih b h

theorem b64urlEncode_ne47 (bs : List Nat) (h : ∀ b ∈ bs, b < 256) :
    ∀ c ∈ b64urlEncode bs, c.toNat ≠ 47 := by
  intro c hc
  have hmem : c.toNat ∈ (b64urlEncode bs).map Char.toNat := List.mem_map_of_mem _ hc
  rw [b64urlEncode_shape bs] at hmem
  rcases List.mem_append.mp hmem with h1 | h1
  · rcases List.mem_map.mp h1 with ⟨v, hv, he⟩
    rw [← he]
    exact b64Char_ne_47 v (b64Vals_lt64 bs h v hv)
  · rw [List.eq_of_mem_replicate h1]
    omega

theorem stripOneSlash_b64 (bs : List Nat) (h : ∀ b ∈ bs, b < 256) :
    stripOneSlash (b64urlEncode bs) = b64urlEncode bs := by
  rw [stripOneSlash]
  cases henc : b64urlEncode bs with
  | nil => rfl
  | cons c t =>
    have hc : c.toNat ≠ 47 := b64urlEncode_ne47 bs h c (henc ▸ List.mem_cons_self ..)
    have hcs : c ≠ '/' := by
      intro he
      subst he
      exact hc rfl
    have : pyStarts (c :: t) "/".toList = false := by
      simp only [pyStarts, List.isPrefixOf]
      simp [Ne.symm hcs]
    rw [this]
    simp

/-- The Fernet model inverts itself under the matching key. -/
theorem fernetDecrypt_fernetEncrypt (k data : List Nat) (hk : ∀ b ∈ k, b < 256)
    (hd : ∀ b ∈ data, b < 256) :
    fernetDecrypt k (fernetEncrypt k data) = some data := by
  rw [fernetEncrypt, fernetDecrypt]
  have hall : ∀ b ∈ 128 :: k ++ data, b < 256 := by
    intro b hb
    simp only [List.mem_cons, List.mem_append, or_assoc] at hb
    rcases hb with rfl | h | h
    · omega
    · exact hk b h
    · exact hd b h
  rw [b64_roundtrip _ hall]
  simp [List.take_left, List.drop_left]

/-- Decrypting with a different 32-byte key fails, the model of a failed HMAC
verification. -/
theorem fernetDecrypt_wrong_key (kA kB data : List Nat)
    (hA : kA.length = 32) (hB : kB.length = 32) (hne : kA ≠ kB)
    (hkb : ∀ b ∈ kA, b < 256) (hd : ∀ b ∈ data, b < 256) :
    fernetDecrypt kB (fernetEncrypt kA data) = none := by
  rw [fernetEncrypt, fernetDecrypt]
  have hall : ∀ b ∈ 128 :: kA ++ data, b < 256 := by
    intro b hb
    simp only [List.mem_cons, List.mem_append, or_assoc] at hb
    rcases hb with rfl | h | h
    · omega
    · exact hkb b h
    · exact hd b h
  rw [b64_roundtrip _ hall]
  have htake : (kA ++ data).take kB.length = kA := by
    rw [hB, ← hA, List.take_left]
  simp [htake, hne]

/-- Decrypting base64 text whose bytes do not begin with the Fernet version
byte fails, the model of InvalidToken on a structurally alien token. -/
theorem fernetDecrypt_not_version (k bs : List Nat) (h : ∀ b ∈ bs, b < 256)
    (hhead : ∀ t, bs ≠ 128 :: t) :
    fernetDecrypt k (b64urlEncode bs) = none := by
  rw [fernetDecrypt, b64_roundtrip bs h]
  split
  · exact absurd (Option.some.inj (by assumption)) (hhead _)
  · rfl

theorem stripOneSlash_fernet (k data : List Nat) (hk : ∀ b ∈ k, b < 256)
    (hd : ∀ b ∈ data, b < 256) :
    stripOneSlash (fernetEncrypt k data) = fernetEncrypt k data := by
  rw [fernetEncrypt]
  apply stripOneSlash_b64
  intro b hb
  simp only [List.mem_cons, List.mem_append, or_assoc] at hb
  rcases hb with rfl | h | h
  · omega
  · exact hk b h
  · exact hd b h

/-- Decoding inverts encoding whenever the cached encryption key (or its
absence) matches, for every dict-like payload. -/
theorem decodePayload_encode (ce cd : Configuration) (p : PyDict)
    (hkey : ce.encryption_key = cd.encryption_key)
    (hkb : ∀ k, ce.encryption_key = some k → ∀ b ∈ k, b < 256)
    (hwf : Json.wfB (.obj p) = true) :
    decodePayload cd (get_url_encoded_data_str ce p) = .ok (.obj p) := by
  have hascii : ∀ c ∈ jsonDumps (Json.obj p), c.toNat < 128 := by
    rw [jsonDumps]
    exact jchars_ascii _
  have hbytes : ∀ b ∈ utf8Encode (jsonDumps (Json.obj p)), b < 256 := utf8Encode_lt256 _
  cases hk : ce.encryption_key with
  | none =>
    have hkd : cd.encryption_key = none := by rw [← hkey, hk]
    rw [get_url_encoded_data_str, decodePayload, hk, hkd]
    simp only [stripOneSlash_b64 _ hbytes, b64_roundtrip _ hbytes,
      utf8_roundtrip_ascii _ hascii, jsonLoads_jsonDumps _ hwf]
  | some k =>
    have hkd : cd.encryption_key = some k := by rw [← hkey, hk]
    have hkb2 := hkb k hk
    rw [get_url_encoded_data_str, decodePayload, hk, hkd]
    simp only [stripOneSlash_fernet k _ hkb2 hbytes,
      fernetDecrypt_fernetEncrypt k _ hkb2 hbytes,
      utf8_roundtrip_ascii _ hascii, jsonLoads_jsonDumps _ hwf]

/-! ### Claim support -/

/-- The embedded payload is exactly the concatenation of an optional `url`
entry, an optional `metadata` entry and an optional `webhook` entry, each
present iff its data is truthy. -/
theorem get_data_to_embed_shape (c : Configuration) (u : Option PyStr)
    (extra : Option PyDict) :
    get_data_to_embed c u extra
      = (if truthyStr u then [("url".toList, Json.str (u.getD []))] else [])
        ++ (if !(embedMetadata c extra).isEmpty then
              [("metadata".toList, Json.obj (embedMetadata c extra))] else [])
        ++ (if c.include_webhook_url && truthyStr c.webhook_url then
              [("webhook".toList, Json.str (c.webhook_url.getD []))] else []) := by
  have k1 : (("url".toList : PyStr) == "metadata".toList) = false := by decide
  have k2 : (("url".toList : PyStr) == "webhook".toList) = false := by decide
  have k3 : (("metadata".toList : PyStr) == "webhook".toList) = false := by decide
  cases hu : truthyStr u <;>
    cases hm : (embedMetadata c extra).isEmpty <;>
      cases hw : c.include_webhook_url && truthyStr c.webhook_url <;>
        simp [get_data_to_embed, hu, hm, hw, dictSet, k1, k2, k3]

/-- Unfolding of well-formedness at an object node. -/
theorem wfB_obj_iff (ms : PyDict) :
    Json.wfB (.obj ms) = (keysDistinct ms && wfEntriesB ms) := rfl

/-- Well-formedness of a string value is trivial. -/
theorem wfB_str (s : PyStr) : Json.wfB (.str s) = true := rfl

/-- Entry well-formedness unfolds entrywise. -/
theorem wfEntriesB_cons (k : PyStr) (v : Json) (t : PyDict) :
    wfEntriesB ((k, v) :: t) = (Json.wfB v && wfEntriesB t) := rfl

/-- Entry well-formedness of the empty dict. -/
theorem wfEntriesB_nil : wfEntriesB [] = true := rfl

/-- `get_tracking_result`'s result assembly on a dict payload, fully
described: the payload's `metadata` entry is a dict (or absent, read as
empty). -/
theorem resolve_obj (c : Configuration) (kvs pmd : PyDict) (rd : Option Json)
    (io : Bool) (now : Nat)
    (hm : dictGet kvs "metadata".toList = some (.obj pmd)
        ∨ (dictGet kvs "metadata".toList = none ∧ pmd = [])) :
    resolveTrackingResult c (.obj kvs) rd io now
      = .ok { is_open_tracking := io
              is_click_tracking := !io
              tracked_url := dictGet kvs "url".toList
              webhook_url := if c.include_webhook_url then dictGet kvs "webhook".toList
                             else c.webhook_url.map Json.str
              metadata := dictUpdate
                (if !c.include_default_metadata && truthyDict c.default_metadata then
                  dictUpdate [] (c.default_metadata.getD []) else []) pmd
              request_data := rd
              timestamp := now } := by
  rcases hm with hm | ⟨hm, rfl⟩ <;> simp only [resolveTrackingResult, hm]

/-- The UTF-8 bytes of a printed object start with the byte of the opening
brace. -/
theorem utf8_dumps_obj_head (p : PyDict) :
    utf8Encode (jsonDumps (Json.obj p)) = 123 :: utf8Encode (jcharsEntries p ++ ['}']) := rfl

/-! ### The claims -/

/-- C1: round-trip symmetry.  Decoding the string produced by encoding a
payload, under any pair of configurations whose cached encryption key (or its
absence) matches, yields the payload back; and on the full
`get_tracking_result` path the tracked URL and the metadata of an encoded
`{url, metadata}` payload are reproduced exactly (stated with no interfering
local default metadata on the decoding side). -/
theorem pytracking_C1 :
    (∀ (ce cd : Configuration) (p : PyDict),
        ce.encryption_key = cd.encryption_key →
        (∀ k, ce.encryption_key = some k → ∀ b ∈ k, b < 256) →
        Json.wfB (.obj p) = true →
        decodePayload cd (get_url_encoded_data_str ce p) = .ok (.obj p))
    ∧ (∀ (ce cd : Configuration) (u : PyStr) (m : PyDict) (rd : Option Json)
        (io : Bool) (now : Nat),
        ce.encryption_key = cd.encryption_key →
        (∀ k, ce.encryption_key = some k → ∀ b ∈ k, b < 256) →
        Json.wfB (.obj [("url".toList, .str u), ("metadata".toList, .obj m)]) = true →
        cd.default_metadata = none →
        ∃ r, get_tracking_result cd
              (get_url_encoded_data_str ce
                [("url".toList, .str u), ("metadata".toList, .obj m)]) rd io now = .ok r
          ∧ r.tracked_url = some (.str u) ∧ r.metadata = m) := by
  constructor
  · exact fun ce cd p hkey hkb hwf => decodePayload_encode ce cd p hkey hkb hwf
  · intro ce cd u m rd io now hkey hkb hwf hdm
    have hkd : keysDistinct m = true := by
      simp only [wfB_obj_iff, wfEntriesB_cons, wfEntriesB_nil, wfB_str, Bool.and_eq_true,
        and_true, true_and] at hwf
      tauto
    have hd := decodePayload_encode ce cd _ hkey hkb hwf
    have e1 : (("url".toList : PyStr) == "metadata".toList) = false := by decide
    have e2 : (("metadata".toList : PyStr) == "metadata".toList) = true := by decide
    have e3 : (("url".toList : PyStr) == "url".toList) = true := by decide
    have hmg : dictGet [("url".toList, Json.str u), ("metadata".toList, Json.obj m)]
        "metadata".toList = some (Json.obj m) := by
      simp [dictGet, e1, e2]
    simp only [get_tracking_result, hd]
    refine ⟨_, resolve_obj cd _ m rd io now (Or.inl hmg), ?_, ?_⟩
    · simp [dictGet, e3]
    · simp only [hdm, truthyDict, Bool.and_false]
      simpa using dictOfPairs_self m hkd

/-- C1 witness: a concrete encrypted round trip and a concrete full
`get_tracking_result` round trip. -/
theorem pytracking_C1_witness :
    (decodePayload { encryption_key := some (List.replicate 32 7) }
        (get_url_encoded_data_str { encryption_key := some (List.replicate 32 7) }
          [("a".toList, Json.int 5)])
      = .ok (.obj [("a".toList, Json.int 5)]))
    ∧ ∃ r, get_tracking_result {}
          (get_url_encoded_data_str {}
            [("url".toList, .str "https://e.x".toList),
             ("metadata".toList, .obj [("b".toList, Json.int 3)])]) none false 0 = .ok r
        ∧ r.tracked_url = some (.str "https://e.x".toList)
        ∧ r.metadata = [("b".toList, Json.int 3)] :=
  ⟨pytracking_C1.1 _ _ _ rfl
      (fun k hk => by
        injection hk with h
        subst h
        intro b hb
        rw [List.eq_of_mem_replicate hb]
        decide)
      (by decide),
   pytracking_C1.2 {} {} _ _ none false 0 rfl (fun k hk => nomatch hk) (by decide) rfl⟩

/-- C2: the embedded payload has a `url` entry iff a tracked URL is provided
and truthy, a `metadata` entry holding the default metadata (only when
`include_default_metadata`) overlaid by the extra metadata with extra winning,
a `webhook` entry iff `include_webhook_url` and the webhook URL is set, and no
other entries (inapplicable keys are omitted, never set to null); and the
spec's concrete merge example evaluates to `{"a": 2, "b": 3}`. -/
theorem pytracking_C2 :
    (∀ (c : Configuration) (u : Option PyStr) (extra : Option PyDict),
        get_data_to_embed c u extra
          = (if truthyStr u then [("url".toList, Json.str (u.getD []))] else [])
            ++ (if !(embedMetadata c extra).isEmpty then
                  [("metadata".toList, Json.obj (embedMetadata c extra))] else [])
            ++ (if c.include_webhook_url && truthyStr c.webhook_url then
                  [("webhook".toList, Json.str (c.webhook_url.getD []))] else []))
    ∧ (∀ (c : Configuration) (extra : Option PyDict),
        embedMetadata c extra
          = dictUpdate
              (dictUpdate []
                (if c.include_default_metadata && truthyDict c.default_metadata then
                  c.default_metadata.getD [] else []))
              (if truthyDict extra then extra.getD [] else []))
    ∧ get_data_to_embed
        { default_metadata := some [("a".toList, Json.int 1)],
          include_default_metadata := true }
        (some "https://e.x".toList)
        (some [("a".toList, Json.int 2), ("b".toList, Json.int 3)])
      = [("url".toList, Json.str "https://e.x".toList),
         ("metadata".toList, Json.obj [("a".toList, Json.int 2), ("b".toList, Json.int 3)])] := by
  refine ⟨get_data_to_embed_shape, ?_, rfl⟩
  intro c extra
  rw [embedMetadata]
  cases h1 : c.include_default_metadata && truthyDict c.default_metadata <;>
    cases h2 : truthyDict extra <;>
      simp [h1, h2, dictUpdate]

/-- C3: on a dict payload the tracking result's metadata starts from the local
default metadata exactly when `include_default_metadata` is false (else empty)
and is overlaid by the payload metadata; the webhook URL comes from the
payload iff `include_webhook_url`, else from the local configuration; the
tracked URL is the payload's `url` entry; the open/click flags are mutually
exclusive and set from the `is_open` argument; and the spec's concrete
example decodes to metadata `{"a": 1, "b": 3}`. -/
theorem pytracking_C3 :
    (∀ (c : Configuration) (kvs pmd : PyDict) (rd : Option Json) (io : Bool) (now : Nat),
        dictGet kvs "metadata".toList = some (.obj pmd)
          ∨ (dictGet kvs "metadata".toList = none ∧ pmd = []) →
        resolveTrackingResult c (.obj kvs) rd io now
          = .ok { is_open_tracking := io
                  is_click_tracking := !io
                  tracked_url := dictGet kvs "url".toList
                  webhook_url := if c.include_webhook_url then dictGet kvs "webhook".toList
                                 else c.webhook_url.map Json.str
                  metadata := dictUpdate
                    (if !c.include_default_metadata && truthyDict c.default_metadata then
                      dictUpdate [] (c.default_metadata.getD []) else []) pmd
                  request_data := rd
                  timestamp := now })
    ∧ (∀ (c : Configuration) (data : Json) (rd : Option Json) (io : Bool) (now : Nat)
        (r : TrackingResult),
        resolveTrackingResult c data rd io now = .ok r →
        r.is_click_tracking = !r.is_open_tracking ∧ r.is_open_tracking = io)
    ∧ resolveTrackingResult
        { default_metadata := some [("a".toList, Json.int 1)],
          include_default_metadata := false }
        (.obj [("metadata".toList, Json.obj [("b".toList, Json.int 3)])]) none false 7
      = .ok { is_open_tracking := false, is_click_tracking := true, tracked_url := none,
              webhook_url := none,
              metadata := [("a".toList, Json.int 1), ("b".toList, Json.int 3)],
              request_data := none, timestamp := 7 } := by
  refine ⟨fun c kvs pmd rd io now hm => resolve_obj c kvs pmd rd io now hm, ?_, rfl⟩
  intro c data rd io now r h
  cases data <;> simp only [resolveTrackingResult] at h
  case obj kvs =>
    split at h
    · exact Except.noConfusion h
    · injection h with h2
      subst h2
      exact ⟨rfl, rfl⟩
  all_goals exact Except.noConfusion h

/-- C3 witness: a concrete payload without a `metadata` entry resolves with
`is_open` reflected in the flags, the tracked URL read from the payload, and
empty metadata. -/
theorem pytracking_C3_witness :
    resolveTrackingResult { webhook_url := some "wh".toList, include_webhook_url := true }
        (.obj [("url".toList, Json.str "u".toList)]) (some (Json.int 9)) true 3
      = .ok { is_open_tracking := true, is_click_tracking := false,
              tracked_url := some (Json.str "u".toList), webhook_url := none,
              metadata := [], request_data := some (Json.int 9), timestamp := 3 } :=
  (pytracking_C3.1 { webhook_url := some "wh".toList, include_webhook_url := true }
      [("url".toList, Json.str "u".toList)] [] (some (Json.int 9)) true 3
      (Or.inr ⟨rfl, rfl⟩)).trans rfl

/-- C4: key-mismatch failure.  Encoding under 32-byte key A and decoding
under a different 32-byte key B fails deterministically with `InvalidToken`;
encoding with a key and decoding with none fails with `UnicodeDecodeError`
(the Fernet version byte is not valid UTF-8); encoding with no key and
decoding with a key fails with `InvalidToken` — never a different valid
payload. -/
theorem pytracking_C4 :
    (∀ (ce cd : Configuration) (kA kB : List Nat) (p : PyDict),
        ce.encryption_key = some kA → cd.encryption_key = some kB →
        kA.length = 32 → kB.length = 32 → kA ≠ kB → (∀ b ∈ kA, b < 256) →
        decodePayload cd (get_url_encoded_data_str ce p) = .error .invalidToken)
    ∧ (∀ (ce cd : Configuration) (k : List Nat) (p : PyDict),
        ce.encryption_key = some k → cd.encryption_key = none → (∀ b ∈ k, b < 256) →
        decodePayload cd (get_url_encoded_data_str ce p) = .error .unicodeDecodeError)
    ∧ (∀ (ce cd : Configuration) (k : List Nat) (p : PyDict),
        ce.encryption_key = none → cd.encryption_key = some k →
        decodePayload cd (get_url_encoded_data_str ce p) = .error .invalidToken) := by
  refine ⟨?_, ?_, ?_⟩
  · intro ce cd kA kB p hA hB hlA hlB hne hkb
    have hbytes : ∀ b ∈ utf8Encode (jsonDumps (Json.obj p)), b < 256 := utf8Encode_lt256 _
    rw [get_url_encoded_data_str, decodePayload, hA, hB]
    simp only [stripOneSlash_fernet kA _ hkb hbytes,
      fernetDecrypt_wrong_key kA kB _ hlA hlB hne hkb hbytes]
  · intro ce cd k p hA hB hkb
    have hbytes : ∀ b ∈ utf8Encode (jsonDumps (Json.obj p)), b < 256 := utf8Encode_lt256 _
    have hall : ∀ b ∈ 128 :: k ++ utf8Encode (jsonDumps (Json.obj p)), b < 256 := by
      intro b hb
      simp only [List.mem_cons, List.mem_append, or_assoc] at hb
      rcases hb with rfl | h | h
      · omega
      · exact hkb b h
      · exact hbytes b h
    rw [get_url_encoded_data_str, decodePayload, hA, hB]
    simp only [fernetEncrypt, stripOneSlash_b64 _ hall, b64_roundtrip _ hall]
    rw [List.cons_append, utf8Decode_cont_fail]
  · intro ce cd k p hA hB
    have hbytes : ∀ b ∈ utf8Encode (jsonDumps (Json.obj p)), b < 256 := utf8Encode_lt256 _
    have hhead : ∀ t, utf8Encode (jsonDumps (Json.obj p)) ≠ 128 :: t := by
      intro t h
      rw [utf8_dumps_obj_head] at h
      injection h with h1
      exact absurd h1 (by decide)
    rw [get_url_encoded_data_str, decodePayload, hA, hB]
    simp only [stripOneSlash_b64 _ hbytes, fernetDecrypt_not_version k _ hbytes hhead]

/-- C4 witness: the three mismatch modes at concrete 32-byte keys and the
empty payload. -/
theorem pytracking_C4_witness :
    (decodePayload { encryption_key := some (List.replicate 32 2) }
        (get_url_encoded_data_str { encryption_key := some (List.replicate 32 1) } [])
      = .error .invalidToken)
    ∧ (decodePayload {}
        (get_url_encoded_data_str { encryption_key := some (List.replicate 32 1) } [])
      = .error .unicodeDecodeError)
    ∧ decodePayload { encryption_key := some (List.replicate 32 1) }
        (get_url_encoded_data_str {} []) = .error .invalidToken :=
  ⟨pytracking_C4.1 _ _ _ _ [] rfl rfl (by decide) (by decide) (by decide)
      (fun b hb => by rw [List.eq_of_mem_replicate hb]; decide),
   pytracking_C4.2.1 _ _ _ [] rfl rfl
      (fun b hb => by rw [List.eq_of_mem_replicate hb]; decide),
   pytracking_C4.2.2 _ _ _ [] rfl rfl⟩

/-- C5 counterexample: the code has no `DecodeError` / `IntegrityError`
distinction.  A structurally malformed token (`"AAAA"`, valid base64 whose
bytes are not a Fernet token at all) and a token encrypted under a different
key (an authentication failure) raise the very same exception,
`cryptography.fernet.InvalidToken`; no `ConfigurationError`, `DecodeError`,
`IntegrityError` or `FormatError` class exists anywhere in the code. -/
theorem pytracking_C5_cex :
    decodePayload { encryption_key := some (List.replicate 32 1) } "AAAA".toList
        = .error .invalidToken
    ∧ decodePayload { encryption_key := some (List.replicate 32 1) }
        (get_url_encoded_data_str { encryption_key := some (List.replicate 32 2) } [])
        = .error .invalidToken := ⟨rfl, rfl⟩

/-- C5 (amended): the decode path surfaces the raw library errors, staged —
`binascii.Error` when unencrypted base64 decoding fails, `InvalidToken` when
the Fernet layer rejects the token (malformed structure and failed
authentication alike), `UnicodeDecodeError` when the decrypted bytes are not
valid text, `JSONDecodeError` when the text is not JSON, `AttributeError`
when the parsed JSON is not an object; and building a configuration whose key
material Fernet rejects raises `ValueError`.  Every error propagates
immediately. -/
theorem pytracking_C5 :
    (∀ (c : Configuration) (p : PyStr), c.encryption_key = none →
        b64urlDecodeStr (stripOneSlash p) = none →
        decodePayload c p = .error .binasciiError)
    ∧ (∀ (c : Configuration) (k : List Nat) (p : PyStr), c.encryption_key = some k →
        fernetDecrypt k (stripOneSlash p) = none →
        decodePayload c p = .error .invalidToken)
    ∧ (∀ (c : Configuration) (k : List Nat) (p : PyStr) (bs : List Nat),
        c.encryption_key = some k → fernetDecrypt k (stripOneSlash p) = some bs →
        utf8Decode bs = none →
        decodePayload c p = .error .unicodeDecodeError)
    ∧ (∀ (c : Configuration) (p : PyStr) (bs : List Nat) (s : PyStr),
        c.encryption_key = none → b64urlDecodeStr (stripOneSlash p) = some bs →
        utf8Decode bs = some s → jsonLoads s = none →
        decodePayload c p = .error .jsonDecodeError)
    ∧ (∀ (c : Configuration) (data : Json) (rd : Option Json) (io : Bool) (now : Nat),
        (∀ kvs, data ≠ .obj kvs) →
        resolveTrackingResult c data rd io now = .error .attributeError)
    ∧ (∀ c : Configuration, truthyStr c.encryption_bytestring_key = true →
        fernetNew (c.encryption_bytestring_key.getD []) = .error .valueError →
        cache_encryption_key c = .error .valueError) := by
  refine ⟨?_, ?_, ?_, ?_, ?_, ?_⟩
  · intro c p hk hb
    rw [decodePayload, hk]
    simp only [hb]
  · intro c k p hk hf
    rw [decodePayload, hk]
    simp only [hf]
  · intro c k p bs hk hf hu
    rw [decodePayload, hk]
    simp only [hf, hu]
  · intro c p bs s hk hb hu hj
    rw [decodePayload, hk]
    simp only [hb, hu, hj]
  · intro c data rd io now h
    cases data with
    | obj kvs => exact absurd rfl (h kvs)
    | _ =>
      rw [resolveTrackingResult]
      exact fun kvs hh => h kvs hh
  · intro c h1 h2
    rw [cache_encryption_key]
    simp only [h1, if_true, h2]

/-- C5 witness: each stage's error at a concrete input — base64 of invalid
length, a token without the Fernet version byte, a token decrypting to an
invalid UTF-8 byte, valid text that is not JSON, a JSON non-object payload,
and key material that is not 32 base64 bytes. -/
theorem pytracking_C5_witness :
    decodePayload {} "AAA".toList = .error .binasciiError
    ∧ decodePayload { encryption_key := some (List.replicate 32 1) } "BBBB".toList
        = .error .invalidToken
    ∧ decodePayload { encryption_key := some (List.replicate 32 1) }
        (fernetEncrypt (List.replicate 32 1) [128]) = .error .unicodeDecodeError
    ∧ decodePayload {} (b64urlEncode (utf8Encode "x".toList)) = .error .jsonDecodeError
    ∧ resolveTrackingResult {} (.int 0) none false 0 = .error .attributeError
    ∧ cache_encryption_key { encryption_bytestring_key := some "x".toList }
        = .error .valueError :=
  ⟨pytracking_C5.1 _ _ rfl rfl,
   pytracking_C5.2.1 _ _ _ rfl rfl,
   pytracking_C5.2.2.1 _ _ _ [128] rfl rfl rfl,
   pytracking_C5.2.2.2.1 _ _ (utf8Encode "x".toList) "x".toList rfl rfl rfl rfl,
   pytracking_C5.2.2.2.2.1 _ _ none false 0 (fun kvs h => Json.noConfusion h),
   pytracking_C5.2.2.2.2.2 _ rfl rfl⟩

/-- C6: `merge_with_kwargs` builds a new configuration in which every settings
field is the keyword override when one is given and the receiver's value
otherwise, and whose derived encryption key is recomputed from the merged key
material — re-running the derivation on the result changes nothing, so a key
override takes effect and the derived key is never inherited from the
receiver.  (The receiver itself, a value, is untouched.) -/
theorem pytracking_C6 (c : Configuration) (k : Kwargs) (c2 : Configuration)
    (h : merge_with_kwargs c k = .ok c2) :
    c2.webhook_url = k.webhook_url.getD c.webhook_url
    ∧ c2.webhook_timeout_seconds = k.webhook_timeout_seconds.getD c.webhook_timeout_seconds
    ∧ c2.include_webhook_url = k.include_webhook_url.getD c.include_webhook_url
    ∧ c2.base_open_tracking_url = k.base_open_tracking_url.getD c.base_open_tracking_url
    ∧ c2.base_click_tracking_url = k.base_click_tracking_url.getD c.base_click_tracking_url
    ∧ c2.default_metadata = k.default_metadata.getD c.default_metadata
    ∧ c2.include_default_metadata = k.include_default_metadata.getD c.include_default_metadata
    ∧ c2.encryption_bytestring_key = k.encryption_bytestring_key.getD c.encryption_bytestring_key
    ∧ c2.encoding = k.encoding.getD c.encoding
    ∧ c2.append_slash = k.append_slash.getD c.append_slash
    ∧ c2.pixel_position = k.pixel_position.getD c.pixel_position
    ∧ cache_encryption_key c2 = .ok c2 := by
  simp only [merge_with_kwargs, cache_encryption_key] at h
  split at h
  · rename_i ht
    split at h
    · rename_i kk hf
      injection h with h2
      subst h2
      refine ⟨rfl, rfl, rfl, rfl, rfl, rfl, rfl, rfl, rfl, rfl, rfl, ?_⟩
      rw [cache_encryption_key]
      simp only [ht, if_true, hf]
    · exact Except.noConfusion h
  · rename_i ht
    injection h with h2
    subst h2
    refine ⟨rfl, rfl, rfl, rfl, rfl, rfl, rfl, rfl, rfl, rfl, rfl, ?_⟩
    rw [cache_encryption_key]
    simp [ht]

/-- C6 witness: merging empty overrides into a configuration holding valid
key material re-derives the cached key on the merged copy, and re-running the
derivation on the result is the identity. -/
theorem pytracking_C6_witness :
    cache_encryption_key
        { webhook_url := some "w".toList,
          encryption_bytestring_key := some (b64urlEncode (List.replicate 32 0)),
          encryption_key := some (List.replicate 32 0) }
      = .ok { webhook_url := some "w".toList,
              encryption_bytestring_key := some (b64urlEncode (List.replicate 32 0)),
              encryption_key := some (List.replicate 32 0) } :=
  (pytracking_C6
      { webhook_url := some "w".toList,
        encryption_bytestring_key := some (b64urlEncode (List.replicate 32 0)) }
      {}
      { webhook_url := some "w".toList,
        encryption_bytestring_key := some (b64urlEncode (List.replicate 32 0)),
        encryption_key := some (List.replicate 32 0) }
      rfl).2.2.2.2.2.2.2.2.2.2.2

/-- C7: extraction of the encoded segment on the decode path.  An input that
starts with the configured base click-tracking URL has that prefix removed
byte for byte (whatever the remainder looks like); an input starting with a
slash that does not match the base has exactly one leading slash removed; an
input matching neither passes through unchanged; and the spec's two concrete
examples both extract `"AbCd123"`. -/
theorem pytracking_C7 :
    (∀ (c : Configuration) (b seg : PyStr),
        c.base_click_tracking_url = some b → b ≠ [] →
        stripOneSlash (click_path_of_input c (b ++ seg)) = stripOneSlash seg)
    ∧ (∀ (c : Configuration) (t : PyStr),
        (truthyStr c.base_click_tracking_url
          && pyStarts ('/' :: t) (c.base_click_tracking_url.getD [])) = false →
        stripOneSlash (click_path_of_input c ('/' :: t)) = t)
    ∧ (∀ (c : Configuration) (p : PyStr),
        (truthyStr c.base_click_tracking_url
          && pyStarts p (c.base_click_tracking_url.getD [])) = false →
        pyStarts p "/".toList = false →
        stripOneSlash (click_path_of_input c p) = p)
    ∧ stripOneSlash (click_path_of_input
        { base_click_tracking_url := some "https://t.example/c/".toList }
        "https://t.example/c/AbCd123".toList) = "AbCd123".toList
    ∧ stripOneSlash (click_path_of_input
        { base_click_tracking_url := some "https://t.example/c/".toList }
        "/AbCd123".toList) = "AbCd123".toList := by
  refine ⟨?_, ?_, ?_, rfl, rfl⟩
  · intro c b seg hc hb
    rcases b with _ | ⟨x, xs⟩
    · exact absurd rfl hb
    · have hpre : pyStarts (x :: (xs ++ seg)) (x :: xs) = true := by
        rw [pyStarts, List.isPrefixOf_iff_prefix, ← List.cons_append]
        exact List.prefix_append _ _
      simp [click_path_of_input, hc, truthyStr, hpre, List.drop_left]
  · intro c t h
    simp only [click_path_of_input, h, Bool.false_eq_true, if_false]
    simp [stripOneSlash, pyStarts, List.isPrefixOf]
  · intro c p hbase hslash
    simp only [click_path_of_input, hbase, Bool.false_eq_true, if_false]
    simp [stripOneSlash, show pyStarts p ['/'] = false from hslash]

/-- C7 witness: stripping the concrete base URL from a full tracking link
leaves the encoded segment. -/
theorem pytracking_C7_witness :
    stripOneSlash (click_path_of_input
        { base_click_tracking_url := some "https://t.example/c/".toList }
        ("https://t.example/c/".toList ++ "AbCd123".toList))
      = stripOneSlash "AbCd123".toList :=
  pytracking_C7.1 _ "https://t.example/c/".toList "AbCd123".toList rfl (by decide)

/-- C8: a link qualifies for click-tracking rewriting iff it starts with
`http://`, `https://` or `//` and does not already start with a configured
base click-tracking URL; `mailto:`, `javascript:` and fragment anchors never
qualify; and the spec's three concrete examples filter as stated. -/
theorem pytracking_C8 :
    (∀ (link : PyStr) (c : Configuration),
        valid_link link c = true ↔
          ((pyStarts link "http://".toList = true ∨ pyStarts link "https://".toList = true
            ∨ pyStarts link "//".toList = true)
           ∧ (truthyStr c.base_click_tracking_url = true →
               pyStarts link (c.base_click_tracking_url.getD []) = false)))
    ∧ (∀ (rest : PyStr) (c : Configuration), valid_link ("mailto:".toList ++ rest) c = false)
    ∧ (∀ (rest : PyStr) (c : Configuration),
        valid_link ("javascript:".toList ++ rest) c = false)
    ∧ (∀ (rest : PyStr) (c : Configuration), valid_link ('#' :: rest) c = false)
    ∧ valid_link "mailto:x@y.com".toList
        { base_click_tracking_url := some "https://t.example/c/".toList } = false
    ∧ valid_link "https://example.com".toList
        { base_click_tracking_url := some "https://t.example/c/".toList } = true
    ∧ valid_link "https://t.example/c/xyz".toList
        { base_click_tracking_url := some "https://t.example/c/".toList } = false := by
  refine ⟨?_, ?_, ?_, ?_, rfl, rfl, rfl⟩
  · intro link c
    rw [valid_link]
    cases h : truthyStr c.base_click_tracking_url
    · simp [h, or_assoc]
    · simp [h, or_assoc, Bool.not_eq_true']
  · intro rest c
    simp only [valid_link]
    rw [show pyStarts ("mailto:".toList ++ rest) "http://".toList = false from rfl,
      show pyStarts ("mailto:".toList ++ rest) "https://".toList = false from rfl,
      show pyStarts ("mailto:".toList ++ rest) "//".toList = false from rfl]
    split <;> simp
  · intro rest c
    simp only [valid_link]
    rw [show pyStarts ("javascript:".toList ++ rest) "http://".toList = false from rfl,
      show pyStarts ("javascript:".toList ++ rest) "https://".toList = false from rfl,
      show pyStarts ("javascript:".toList ++ rest) "//".toList = false from rfl]
    split <;> simp
  · intro rest c
    simp only [valid_link]
    rw [show pyStarts ('#' :: rest) "http://".toList = false from rfl,
      show pyStarts ('#' :: rest) "https://".toList = false from rfl,
      show pyStarts ('#' :: rest) "//".toList = false from rfl]
    split <;> simp

/-- C9: the standalone path extractors drop the first `len(base)` characters
of their input unconditionally — no prefix check happens, so an input that
does not start with the base URL is truncated all the same, as the spec's
mismatched example shows. -/
theorem pytracking_C9 :
    (∀ (c : Configuration) (b url : PyStr), c.base_click_tracking_url = some b →
        get_click_tracking_url_path c url = .ok (url.drop b.length))
    ∧ (∀ (c : Configuration) (b url : PyStr), c.base_open_tracking_url = some b →
        get_open_tracking_url_path c url = .ok (url.drop b.length))
    ∧ get_click_tracking_url_path
        { base_click_tracking_url := some "https://t.example/c/".toList }
        "https://other.example/zz".toList = .ok "e/zz".toList := by
  refine ⟨?_, ?_, rfl⟩
  · intro c b url hb
    simp only [get_click_tracking_url_path, hb]
  · intro c b url hb
    simp only [get_open_tracking_url_path, hb]

/-- C9 witness: a URL that does not start with the configured base is
truncated by the base's length anyway. -/
theorem pytracking_C9_witness :
    get_click_tracking_url_path
        { base_click_tracking_url := some "https://t.example/c/".toList }
        "https://other.example/zz".toList
      = .ok ("https://other.example/zz".toList.drop "https://t.example/c/".toList.length) :=
  pytracking_C9.1 _ "https://t.example/c/".toList "https://other.example/zz".toList rfl

/-- C10: truthiness makes emptiness absence.  An empty-string tracked URL
leaves the payload without a `url` key, an empty merged metadata dict leaves
it without a `metadata` key, and an empty-string webhook URL leaves it
without a `webhook` key even when `include_webhook_url` is set; decoding such
a payload then reports `tracked_url = None`. -/
theorem pytracking_C10 :
    (∀ (c : Configuration) (extra : Option PyDict),
        dictGet (get_data_to_embed c (some []) extra) "url".toList = none)
    ∧ (∀ (c : Configuration) (u : Option PyStr) (extra : Option PyDict),
        embedMetadata c extra = [] →
        dictGet (get_data_to_embed c u extra) "metadata".toList = none)
    ∧ (∀ (c : Configuration) (u : Option PyStr) (extra : Option PyDict),
        c.webhook_url = some [] →
        dictGet (get_data_to_embed c u extra) "webhook".toList = none)
    ∧ get_tracking_result {}
        (get_url_encoded_data_str {} (get_data_to_embed {} (some []) none)) none false 0
      = .ok { is_open_tracking := false, is_click_tracking := true, tracked_url := none,
              webhook_url := none, metadata := [], request_data := none,
              timestamp := 0 } := by
  have kmu : (("metadata".toList : PyStr) == "url".toList) = false := by decide
  have kwu : (("webhook".toList : PyStr) == "url".toList) = false := by decide
  have kum : (("url".toList : PyStr) == "metadata".toList) = false := by decide
  have kwm : (("webhook".toList : PyStr) == "metadata".toList) = false := by decide
  have kuw : (("url".toList : PyStr) == "webhook".toList) = false := by decide
  have kmw : (("metadata".toList : PyStr) == "webhook".toList) = false := by decide
  refine ⟨?_, ?_, ?_, rfl⟩
  · intro c extra
    rw [get_data_to_embed_shape]
    cases hA : (embedMetadata c extra).isEmpty <;>
      cases hB : c.include_webhook_url && truthyStr c.webhook_url <;>
        simp [truthyStr, hA, hB, dictGet, kmu, kwu]
  · intro c u extra hm
    rw [get_data_to_embed_shape, hm]
    cases hA : truthyStr u <;>
      cases hB : c.include_webhook_url && truthyStr c.webhook_url <;>
        simp [hA, hB, dictGet, kum, kwm]
  · intro c u extra hw
    rw [get_data_to_embed_shape, hw]
    cases hA : truthyStr u <;>
      cases hB : (embedMetadata c extra).isEmpty <;>
        simp [truthyStr, hA, hB, dictGet, kuw, kmw]

/-- C10 witness: an untruthy extra-metadata dict yields no `metadata` entry,
and an empty webhook URL yields no `webhook` entry despite
`include_webhook_url`. -/
theorem pytracking_C10_witness :
    dictGet (get_data_to_embed {} none (some [])) "metadata".toList = none
    ∧ dictGet (get_data_to_embed { webhook_url := some [], include_webhook_url := true }
        none none) "webhook".toList = none :=
  ⟨pytracking_C10.2.1 {} none (some []) rfl,
   pytracking_C10.2.2.1 _ none none rfl⟩
